import Mathlib

/-!
# Verification of the Huffman code generator (`pkg/generate_codes/generate_codes.go`)

Shallow embedding of the core code-generation pipeline of the
`go_huffman_coding` repository, together with proofs of the specified
properties.

Modelling conventions:

* A Go `*Node` is a nullable pointer; we embed it as the inductive `Node`
  with a `nil` constructor, so `Node.nil` is Go's `nil` and
  `Node.mk v f l r` is a pointer to `Node{Value: v, Frequency: f, Left: l,
  Right: r}`.  The `index` field of the Go struct is bookkeeping used only
  by `heap.Fix`/`heap.Remove`, which this program never calls, and it does
  not influence `Len/Less/Swap/Push/Pop`; it is therefore omitted.
* The `PriorityQueue` is an `Array Node` and the relevant functions of
  Go's `container/heap` (`up`, `down`, `Init`, `Push`, `Pop`) are embedded
  verbatim.  The loops of `up` and `down` are written with an explicit
  fuel argument so that the definitions stay kernel-computable; the fuel
  passed at the call sites (`j + 1` resp. `n`) strictly exceeds the number
  of iterations the Go loop can perform (`up` strictly decreases `j`,
  `down` strictly increases `i < n`), so the fueled functions compute
  exactly what the Go loops compute.
* Go maps are embedded as association lists kept in key-insertion order;
  `map[k] = v` is `mapAssign` and `map[k]++` is `incr`.  Go's `for range`
  over a map visits each entry exactly once in an unspecified
  (runtime-randomized) order, so every function that ranges over a map
  takes that visit order as an explicit argument `enum`; the valid orders
  are exactly the permutations of the entry list (`EnumOf`).
* A Go function that can panic is embedded with an `Option` result,
  `none` meaning the panic.  A Go `nil` slice argument is `none` of an
  `Option (List String)`; a non-nil slice of length 0 is `some []`.
  The `nil` map returned for a `nil` argument is modelled as the empty
  table (a nil Go map has no entries).
-/

/-- Go type `Node` from `generate_codes.go` (more precisely `*Node`:
`Node.nil` is the nil pointer).  Fields `Value`, `Frequency`, `Left`,
`Right`; the heap-internal `index` field is omitted (see module docs). -/
inductive Node : Type where
  | nil : Node
  | mk (value : String) (frequency : Nat) (left : Node) (right : Node) : Node
deriving DecidableEq, Repr

namespace Node

/-- Field access `n.Value` (never applied to nil by the program). -/
def value : Node → String
  | .nil => ""
  | .mk v _ _ _ => v

/-- Field access `n.Frequency` (never applied to nil by the program). -/
def frequency : Node → Nat
  | .nil => 0
  | .mk _ f _ _ => f

/-- Field access `n.Left` (never applied to nil by the program). -/
def left : Node → Node
  | .nil => .nil
  | .mk _ _ l _ => l

/-- Field access `n.Right` (never applied to nil by the program). -/
def right : Node → Node
  | .nil => .nil
  | .mk _ _ _ r => r

end Node

/-- The zero value used for out-of-range array reads in the embedding;
every read performed by the embedded heap code is in range. -/
def dfltNode : Node := .nil

/-- `PriorityQueue` from `generate_codes.go` (`[]*Node`). -/
abbrev PriorityQueue := Array Node

/-- `PriorityQueue.Less` from `generate_codes.go`:
`pq[i].Frequency < pq[j].Frequency` (a strict min-heap comparison with no
tie-break on equal frequencies). -/
def less (pq : PriorityQueue) (i j : Nat) : Bool :=
  decide ((pq.getD i dfltNode).frequency < (pq.getD j dfltNode).frequency)

/-- `PriorityQueue.Swap` from `generate_codes.go` (the `index` updates are
dropped, see module docs). -/
def swapA (pq : PriorityQueue) (i j : Nat) : PriorityQueue :=
  let vi := pq.getD i dfltNode
  let vj := pq.getD j dfltNode
  (pq.setD i vj).setD j vi

/-- The loop body of `container/heap.up`, with explicit fuel.
Go source:
`for { i := (j - 1) / 2; if i == j || !h.Less(j, i) { break };`
`h.Swap(i, j); j = i }`.
Note `(j - 1) / 2` agrees between Go `int` and `Nat` at `j = 0`
(both give `0`, which triggers the `i == j` break). -/
def heapUpF : Nat → PriorityQueue → Nat → PriorityQueue
  | 0, pq, _ => pq
  | fuel + 1, pq, j =>
    let i := (j - 1) / 2
    if i = j then pq
    else if less pq j i then heapUpF fuel (swapA pq i j) i
    else pq

/-- `container/heap.up`.  Each iteration strictly decreases `j`, so
`j + 1` units of fuel always suffice. -/
def heapUp (pq : PriorityQueue) (j : Nat) : PriorityQueue :=
  heapUpF (j + 1) pq j

/-- The loop body of `container/heap.down`, with explicit fuel.
Go source:
`for { j1 := 2*i + 1; if j1 >= n || j1 < 0 { break }; j := j1;`
`if j2 := j1 + 1; j2 < n && h.Less(j2, j1) { j = j2 };`
`if !h.Less(j, i) { break }; h.Swap(i, j); i = j }`.
(The `j1 < 0` test guards Go `int` overflow and cannot fire for `Nat`.)
The returned `i > i0` flag is used only by `heap.Fix`, which this
program never calls, and is dropped. -/
def heapDownF : Nat → PriorityQueue → Nat → Nat → PriorityQueue
  | 0, pq, _, _ => pq
  | fuel + 1, pq, i, n =>
    let j1 := 2 * i + 1
    if j1 < n then
      let j := if j1 + 1 < n && less pq (j1 + 1) j1 then j1 + 1 else j1
      if less pq j i then heapDownF fuel (swapA pq i j) j n
      else pq
    else pq

/-- `container/heap.down`.  Each iteration strictly increases `i` while
keeping `i < n`, so `n` units of fuel always suffice. -/
def heapDown (pq : PriorityQueue) (i n : Nat) : PriorityQueue :=
  heapDownF n pq i n

/-- `container/heap.Init`:
`n := h.Len(); for i := n/2 - 1; i >= 0; i-- { down(h, i, n) }`. -/
def heapInit (pq : PriorityQueue) : PriorityQueue :=
  let n := pq.size
  (List.range (n / 2)).reverse.foldl (fun a i => heapDown a i n) pq

/-- `container/heap.Push` combined with `PriorityQueue.Push`:
append the node, then `up(h, h.Len()-1)`. -/
def heapPush (pq : PriorityQueue) (x : Node) : PriorityQueue :=
  let pq' := pq.push x
  heapUp pq' (pq'.size - 1)

/-- `container/heap.Pop` combined with `PriorityQueue.Pop`:
`n := h.Len() - 1; h.Swap(0, n); down(h, 0, n)`, then remove and return
the last element.  (The `old[n-1] = nil` write and `index = -1` mark in
`PriorityQueue.Pop` are garbage-collection hygiene with no effect on the
result.)  The program only calls this with a non-empty queue. -/
def heapPop (pq : PriorityQueue) : Node × PriorityQueue :=
  let n := pq.size - 1
  let a := heapDown (swapA pq 0 n) 0 n
  (a.getD n dfltNode, a.pop)

/-- `InitializeHeap` from `generate_codes.go`: build one leaf node per
entry of the frequency map, in the order `enum` in which Go's `for range`
visits the map, then `heap.Init`. -/
def InitializeHeap (enum : List (String × Nat)) : PriorityQueue :=
  heapInit ((enum.map (fun p => Node.mk p.1 p.2 .nil .nil)).toArray)

/-- The `for pq.Len() > 1` loop of `BuildHuffmanTree`, with explicit
fuel: pop the two lowest-frequency nodes, push an internal node (zero
`Value`, i.e. `""`) whose frequency is their sum, left child the first
popped node, right child the second.  Each iteration shrinks the queue by
one, so `pq.size` units of fuel always suffice. -/
def buildLoop : Nat → PriorityQueue → PriorityQueue
  | 0, pq => pq
  | fuel + 1, pq =>
    if 1 < pq.size then
      let p1 := heapPop pq
      let p2 := heapPop p1.2
      buildLoop fuel
        (heapPush p2.2 (Node.mk "" (p1.1.frequency + p2.1.frequency) p1.1 p2.1))
    else pq

/-- `BuildHuffmanTree` from `generate_codes.go`.  After the loop it
returns `(*pq)[0]`; on an empty queue that indexing panics, which is
modelled by the `none` result. -/
def BuildHuffmanTree (pq : PriorityQueue) : Option Node :=
  (buildLoop pq.size pq)[0]?

/-- Go map assignment `codes[k] = v` on an insertion-ordered association
list: overwrite the binding if the key is present, else append it. -/
def mapAssign : List (String × String) → String → String → List (String × String)
  | [], k, v => [(k, v)]
  | (k', v') :: rest, k, v =>
    if k' = k then (k, v) :: rest else (k', v') :: mapAssign rest k v

/-- `generateHuffmanCodesRecursive` from `generate_codes.go`; the Go
function mutates `codes`, so the embedding returns the updated map. -/
def generateHuffmanCodesRecursive : Node → String → List (String × String) → List (String × String)
  | .nil, _, codes => codes
  | .mk v _ l r, code, codes =>
    if l = Node.nil ∧ r = Node.nil then mapAssign codes v code
    else
      generateHuffmanCodesRecursive r (code ++ "1")
        (generateHuffmanCodesRecursive l (code ++ "0") codes)

/-- Fuel bound for the iterative traversal: each loop iteration strictly
decreases the sum of `esize` over the stack. -/
def Node.esize : Node → Nat
  | .nil => 1
  | .mk _ _ l r => 1 + l.esize + r.esize

/-- The `for len(stack) > 0` loop of `generateHuffmanCodesIterative`,
with explicit fuel.  The two parallel Go slices `stack`/`codeStack`
(always of equal length, top at the end) are embedded as one list of
pairs with the top at the head; `append(stack, node.Right, node.Left)`
paired with `append(codeStack, code+"1", code+"0")` therefore pushes
`(Left, code+"0")` on top of `(Right, code+"1")`. -/
def iterLoopF : Nat → List (Node × String) → List (String × String) → List (String × String)
  | 0, _, codes => codes
  | _ + 1, [], codes => codes
  | fuel + 1, (n, code) :: rest, codes =>
    match n with
    | .nil => iterLoopF fuel rest codes
    | .mk v _ l r =>
      if l = Node.nil ∧ r = Node.nil then iterLoopF fuel rest (mapAssign codes v code)
      else iterLoopF fuel ((l, code ++ "0") :: (r, code ++ "1") :: rest) codes

/-- `generateHuffmanCodesIterative` from `generate_codes.go`:
`stack := []*Node{root}; codeStack := []string{""}`, then the work-list
loop.  `root.esize` units of fuel always suffice (see `iterLoopF`). -/
def generateHuffmanCodesIterative (root : Node) : List (String × String) :=
  iterLoopF root.esize [(root, "")] []

/-- One step of the frequency-counting loop: `frequencyMap[cmd]++`
(a missing key reads as the zero value 0). -/
def incr : List (String × Nat) → String → List (String × Nat)
  | [], k => [(k, 1)]
  | (k', v) :: rest, k =>
    if k' = k then (k', v + 1) :: rest else (k', v) :: incr rest k

/-- The frequency map built by the loop
`for _, cmd := range commands { frequencyMap[cmd]++ }`, kept in
key-insertion order. -/
def buildFrequencyMap (commands : List String) : List (String × Nat) :=
  commands.foldl incr []

/-- `GetCodesFromListOfCommands` from `generate_codes.go`.
`commands = none` is a nil Go slice (early `return nil`, i.e. the empty
table); `enum` is the order in which the subsequent `for range` visits
the entries of `frequencyMap` (any permutation of
`buildFrequencyMap cmds`, see `EnumOf`); `none` as result is the panic
raised inside `BuildHuffmanTree` on an empty queue. -/
def GetCodesFromListOfCommands (commands : Option (List String))
    (enum : List (String × Nat)) : Option (List (String × String)) :=
  match commands with
  | none => some []
  | some _ =>
    let pq := InitializeHeap enum
    match BuildHuffmanTree pq with
    | none => none
    | some root => some (generateHuffmanCodesIterative root)

/-- `enum` is a possible order in which Go's randomized `for range` can
visit the entries of the frequency map of `cmds`: exactly the
permutations of the entry list. -/
def EnumOf (cmds : List String) (enum : List (String × Nat)) : Prop :=
  enum.Perm (buildFrequencyMap cmds)

/-- Map lookup `m[s]` on an association-list table. -/
def lookupTbl : List (String × String) → String → Option String
  | [], _ => none
  | (k, v) :: rest, s => if k = s then some v else lookupTbl rest s

/-- Map lookup with zero default on the frequency map. -/
def lookupCount : List (String × Nat) → String → Nat
  | [], _ => 0
  | (k, v) :: rest, s => if k = s then v else lookupCount rest s

/-! ### Derived notions used to state the claims

The following definitions are not Go code; they are observations of the
embedded data (leaf fringes, node counts, well-formedness, the code list
produced by a depth-first traversal) used to state and prove the claims.
A node is a leaf exactly when `Left` and `Right` are both nil, the test
used throughout `generate_codes.go`. -/

/-- The leaf values of a tree, in left-to-right order. -/
def Node.leaves : Node → List String
  | .nil => []
  | .mk v _ l r => if l = Node.nil ∧ r = Node.nil then [v] else l.leaves ++ r.leaves

/-- Number of leaf nodes of a tree. -/
def Node.leafCount : Node → Nat
  | .nil => 0
  | .mk _ _ l r => if l = Node.nil ∧ r = Node.nil then 1 else l.leafCount + r.leafCount

/-- Number of internal (non-leaf, non-nil) nodes of a tree. -/
def Node.internalCount : Node → Nat
  | .nil => 0
  | .mk _ _ l r =>
    if l = Node.nil ∧ r = Node.nil then 0 else 1 + l.internalCount + r.internalCount

/-- Whether a node is a non-nil pointer. -/
def Node.isMkB : Node → Bool
  | .nil => false
  | .mk _ _ _ _ => true

/-- Structural invariant of the trees built by `BuildHuffmanTree`: the
tree is non-nil, every non-leaf node has two non-nil children, and every
non-leaf node's `Frequency` is the sum of its children's frequencies. -/
def Node.wellFormedB : Node → Bool
  | .nil => false
  | .mk _ _ .nil .nil => true
  | .mk _ f l r =>
    l.isMkB && r.isMkB && decide (f = l.frequency + r.frequency)
      && l.wellFormedB && r.wellFormedB

/-- The (symbol, code) pairs a depth-first traversal of the tree emits,
in the order the traversals of `generate_codes.go` visit the leaves. -/
def codesOf : Node → String → List (String × String)
  | .nil, _ => []
  | .mk v _ .nil .nil, code => [(v, code)]
  | .mk _ _ l r, code => codesOf l (code ++ "0") ++ codesOf r (code ++ "1")

/-- Perform a sequence of Go map assignments. -/
def assignAll (codes : List (String × String)) (l : List (String × String)) :
    List (String × String) :=
  l.foldl (fun m p => mapAssign m p.1 p.2) codes

/-- Bit-string prefix test on the underlying character lists. -/
def pfxB : List Char → List Char → Bool
  | [], _ => true
  | _ :: _, [] => false
  | a :: as, b :: bs => if a = b then pfxB as bs else false

/-- `a` is a proper prefix of `b` (a strictly shorter leading piece). -/
def properPfxB (a b : String) : Bool :=
  pfxB a.data b.data && decide (a ≠ b)

/-! ### Heap-order notions (for the minimality of `heap.Pop`)

Indices of the implicit binary tree of `container/heap`: the children of
`i` are `2i+1` and `2i+2`. -/

/-- The frequency stored at index `i` of the queue. -/
def freqAt (pq : PriorityQueue) (i : Nat) : Nat :=
  (pq.getD i dfltNode).frequency

/-- `Desc r a`: index `a` lies in the subtree rooted at index `r`. -/
inductive Desc : Nat → Nat → Prop where
  | refl (i : Nat) : Desc i i
  | left {i j : Nat} : Desc i j → Desc i (2 * j + 1)
  | right {i j : Nat} : Desc i j → Desc i (2 * j + 2)

/-- The min-heap order holds on every edge inside the subtree rooted at
`r`, restricted to indices below `n`. -/
def SubHeap (pq : PriorityQueue) (n r : Nat) : Prop :=
  ∀ j k, Desc r j → (k = 2 * j + 1 ∨ k = 2 * j + 2) → k < n →
    freqAt pq j ≤ freqAt pq k

/-- Specification of what `down` does to the subtree rooted at `i`: the
subtree becomes a heap, entries outside the subtree (or beyond `n`) are
untouched, and entries inside are a rearrangement of old subtree
entries. -/
def DownSpec (pq res : PriorityQueue) (n i : Nat) : Prop :=
  SubHeap res n i
  ∧ (∀ k, (¬ Desc i k ∨ n ≤ k) → res.getD k dfltNode = pq.getD k dfltNode)
  ∧ (∀ k, Desc i k → k < n →
      ∃ k', Desc i k' ∧ k' < n ∧ res.getD k dfltNode = pq.getD k' dfltNode)

/-- Loop invariant of `up` at current index `j`: every heap edge holds
except possibly the one into `j`, and the prospective grandparent bound
holds for the children of `j`. -/
def UpInv (a : PriorityQueue) (j : Nat) : Prop :=
  (∀ p c, (c = 2 * p + 1 ∨ c = 2 * p + 2) → c < a.size → c ≠ j →
    freqAt a p ≤ freqAt a c)
  ∧ (∀ c, (c = 2 * j + 1 ∨ c = 2 * j + 2) → c < a.size → 0 < j →
    freqAt a ((j - 1) / 2) ≤ freqAt a c)

/-! ### Abstract weighted binary trees (for Huffman optimality)

`BT` is a binary tree whose leaves carry a symbol and a weight; it is the
mathematical object against which the optimality of the generated code is
stated: every binary prefix code corresponds to such a tree, and the cost
of the tree is the weighted sum of its leaf depths. -/

/-- A binary tree with weighted, labelled leaves. -/
inductive BT : Type where
  | leaf (s : String) (w : Nat) : BT
  | node (l r : BT) : BT
deriving DecidableEq, Repr

/-- The multiset of (symbol, weight) leaf pairs of the tree. -/
def BT.leavesM : BT → Multiset (String × Nat)
  | .leaf s w => {(s, w)}
  | .node l r => l.leavesM + r.leavesM

/-- Total weight of the tree (sum of its leaf weights). -/
def BT.weight : BT → Nat
  | .leaf _ w => w
  | .node l r => l.weight + r.weight

/-- The weighted external path length: the sum over leaves of
(weight × depth). -/
def BT.cost : BT → Nat
  | .leaf _ _ => 0
  | .node l r => l.cost + r.cost + l.weight + r.weight

/-- The shape of a full binary tree: a fringe of slots. -/
inductive Shape : Type where
  | slot : Shape
  | nodeS (a b : Shape) : Shape
deriving DecidableEq

/-- Number of fringe slots of a shape. -/
def Shape.numSlots : Shape → Nat
  | .slot => 1
  | .nodeS a b => a.numSlots + b.numSlots

/-- The slot depths of a shape, in fringe (left-to-right) order. -/
def Shape.depths : Shape → List Nat
  | .slot => [0]
  | .nodeS a b => a.depths.map (· + 1) ++ b.depths.map (· + 1)

/-- Maximum slot depth of a shape. -/
def Shape.maxD : Shape → Nat
  | .slot => 0
  | .nodeS a b => max a.maxD b.maxD + 1

/-- Plug a list of subtrees (in fringe order) into a shape. -/
def fill : Shape → List BT → BT
  | .slot, l => l.headD (BT.leaf "" 0)
  | .nodeS a b, l => .node (fill a (l.take a.numSlots)) (fill b (l.drop a.numSlots))

/-- `Collapse s k s'`: the slots `k` and `k+1` of `s` are the two
children of one node, and `s'` is `s` with that node made a single slot. -/
inductive Collapse : Shape → Nat → Shape → Prop where
  | here : Collapse (.nodeS .slot .slot) 0 .slot
  | left {a : Shape} {k : Nat} {a' : Shape} (b : Shape) :
      Collapse a k a' → Collapse (.nodeS a b) k (.nodeS a' b)
  | right (a : Shape) {b : Shape} {k : Nat} {b' : Shape} :
      Collapse b k b' → Collapse (.nodeS a b) (a.numSlots + k) (.nodeS a b')

/-- Dot product of a depth list and a weight list. -/
def dotD (d w : List Nat) : Nat :=
  (List.zipWith (fun a b => a * b) d w).sum

/-- `T` is assembled from the multiset `S` of subtrees: some full binary
shape has the elements of `S` plugged into its fringe. -/
def IsAssemblyOf (S : Multiset BT) (T : BT) : Prop :=
  ∃ (sh : Shape) (l : List BT),
    l.length = sh.numSlots ∧ (l : Multiset BT) = S ∧ fill sh l = T

/-- The runs of the merge loop, abstractly: repeatedly replace two
minimum-weight trees `t1` (removed first) and `t2` (removed second from
the rest) by `node t1 t2`, until one tree remains. -/
inductive HuffSteps : Multiset BT → BT → Prop where
  | single (t : BT) : HuffSteps {t} t
  | step {S : Multiset BT} {t1 t2 R : BT} :
      t1 ∈ S → t2 ∈ S.erase t1 →
      (∀ u ∈ S, t1.weight ≤ u.weight) →
      (∀ u ∈ S.erase t1, t2.weight ≤ u.weight) →
      HuffSteps (BT.node t1 t2 ::ₘ (S.erase t1).erase t2) R →
      HuffSteps S R

/-- The view of an embedded `Node` tree as a weighted binary tree:
leaves keep their symbol and `Frequency`; internal nodes forget the
cached frequency (for well-formed trees it is the sum of the leaf
weights below). -/
def toBT : Node → BT
  | .nil => BT.leaf "" 0
  | .mk v f .nil .nil => BT.leaf v f
  | .mk _ _ l r => BT.node (toBT l) (toBT r)

/-- The leaf (symbol, weight) pairs of an embedded tree, left to right. -/
def Node.leafPairs : Node → List (String × Nat)
  | .nil => []
  | .mk v f l r =>
    if l = Node.nil ∧ r = Node.nil then [(v, f)] else l.leafPairs ++ r.leafPairs

/-- The cost of a code table against a frequency function: the sum over
entries of (frequency of the symbol) × (code length). -/
def tableCost (freq : String → Nat) (table : List (String × String)) : Nat :=
  (table.map (fun p => freq p.1 * p.2.data.length)).sum

/-- A binary prefix code over a set of symbols, given as a table: every
code uses only the characters 0 and 1, and no code is a prefix (proper
or not) of the code of a different entry. -/
def IsBinaryPrefixCode (table : List (String × String)) : Prop :=
  (∀ p ∈ table, ∀ ch ∈ p.2.data, ch = '0' ∨ ch = '1')
  ∧ table.Pairwise (fun p q => ¬ p.2.data <+: q.2.data ∧ ¬ q.2.data <+: p.2.data)

/-! ## Permutation and size lemmas for the embedded heap operations -/

theorem getD_cons_set_perm {α : Type} (d x : α) :
    ∀ (t : List α) (m : Nat), m < t.length →
      (t.getD m d :: t.set m x).Perm (x :: t) := by
  intro t
  induction t with
  | nil => intro m hm; simp at hm
  | cons b s ih =>
    intro m hm
    cases m with
    | zero => simpa using List.Perm.swap x b s
    | succ m =>
      simp only [List.getD_cons_succ, List.set_cons_succ]
      have h1 : (s.getD m d :: b :: s.set m x).Perm (b :: s.getD m d :: s.set m x) :=
        List.Perm.swap b (s.getD m d) _
      have h2 : (b :: s.getD m d :: s.set m x).Perm (b :: x :: s) :=
        List.Perm.cons b (ih m (by simpa using hm))
      exact (h1.trans h2).trans (List.Perm.swap x b s)

theorem set_set_swap_perm {α : Type} (d : α) :
    ∀ (l : List α) (i j : Nat), i < l.length → j < l.length →
      ((l.set i (l.getD j d)).set j (l.getD i d)).Perm l := by
  intro l
  induction l with
  | nil => intro i j hi; simp at hi
  | cons a t ih =>
    intro i j hi hj
    cases i with
    | zero =>
      cases j with
      | zero => simp
      | succ m =>
        simp only [List.getD_cons_succ, List.getD_cons_zero, List.set_cons_zero,
          List.set_cons_succ]
        exact getD_cons_set_perm d a t m (by simpa using hj)
    | succ k =>
      cases j with
      | zero =>
        simp only [List.getD_cons_succ, List.getD_cons_zero, List.set_cons_zero,
          List.set_cons_succ]
        exact getD_cons_set_perm d a t k (by simpa using hi)
      | succ m =>
        simp only [List.getD_cons_succ, List.set_cons_succ]
        exact List.Perm.cons a (ih k m (by simpa using hi) (by simpa using hj))

theorem arr_getD_eq_list {α : Type} (a : Array α) (i : Nat) (d : α) :
    a.getD i d = a.toList.getD i d := by
  by_cases h : i < a.size
  · simp only [Array.getD, dif_pos h]
    rw [show a.toList.getD i d = (a.toList.get? i).getD d from rfl,
      List.get?_eq_get (show i < a.toList.length from h)]
    rfl
  · simp only [Array.getD, dif_neg h]
    rw [show a.toList.getD i d = (a.toList.get? i).getD d from rfl,
      List.get?_eq_none.mpr (show a.toList.length ≤ i from Nat.le_of_not_lt h)]
    rfl

theorem setD_toList {α : Type} (a : Array α) (k : Nat) (v : α) :
    (a.setD k v).toList = a.toList.set k v := by
  simp only [Array.setD]
  split
  · rfl
  · next h =>
    rw [List.set_eq_of_length_le (show a.toList.length ≤ k from Nat.le_of_not_lt h)]

theorem swapA_size (pq : PriorityQueue) (i j : Nat) :
    (swapA pq i j).size = pq.size := by
  show ((pq.setD i _).setD j _).toList.length = pq.toList.length
  rw [setD_toList, setD_toList]
  simp

theorem swapA_toList (pq : PriorityQueue) (i j : Nat) :
    (swapA pq i j).toList
      = (pq.toList.set i (pq.toList.getD j dfltNode)).set j
          (pq.toList.getD i dfltNode) := by
  show ((pq.setD i (pq.getD j dfltNode)).setD j (pq.getD i dfltNode)).toList = _
  rw [setD_toList, setD_toList, arr_getD_eq_list, arr_getD_eq_list]

theorem swapA_perm (pq : PriorityQueue) (i j : Nat)
    (hi : i < pq.size) (hj : j < pq.size) :
    (swapA pq i j).toList.Perm pq.toList := by
  rw [swapA_toList pq i j]
  exact set_set_swap_perm dfltNode pq.toList i j (show i < pq.toList.length from hi)
    (show j < pq.toList.length from hj)

theorem swapA_getD_of_ne (pq : PriorityQueue) (i j k : Nat) (d : Node)
    (hki : k ≠ i) (hkj : k ≠ j) :
    (swapA pq i j).getD k d = pq.getD k d := by
  rw [arr_getD_eq_list, arr_getD_eq_list,
    show ∀ (l : List Node), l.getD k d = (l.get? k).getD d from fun _ => rfl,
    show ∀ (l : List Node), l.getD k d = (l.get? k).getD d from fun _ => rfl,
    swapA_toList, List.get?_set_ne _ _ (Ne.symm hkj), List.get?_set_ne _ _ (Ne.symm hki)]

theorem heapDownF_size :
    ∀ (fuel : Nat) (pq : PriorityQueue) (i n : Nat),
      (heapDownF fuel pq i n).size = pq.size := by
  intro fuel
  induction fuel with
  | zero => intro pq i n; rfl
  | succ fuel ih =>
    intro pq i n
    simp only [heapDownF]
    repeat' split
    all_goals simp [ih, swapA_size]

theorem heapDownF_perm :
    ∀ (fuel : Nat) (pq : PriorityQueue) (i n : Nat), n ≤ pq.size →
      (heapDownF fuel pq i n).toList.Perm pq.toList := by
  intro fuel
  induction fuel with
  | zero => intro pq i n _; exact List.Perm.refl _
  | succ fuel ih =>
    intro pq i n hn
    simp only [heapDownF]
    split
    · next hj1 =>
      have hi : i < pq.size := by omega
      split
      · next hb =>
        have hj : 2 * i + 1 + 1 < n := by
          rcases Bool.and_eq_true_iff.mp hb with ⟨h1, _⟩
          exact of_decide_eq_true h1
        split
        · exact (ih _ _ n (by rw [swapA_size]; exact hn)).trans
            (swapA_perm pq i _ hi (by omega))
        · exact List.Perm.refl _
      · split
        · exact (ih _ _ n (by rw [swapA_size]; exact hn)).trans
            (swapA_perm pq i _ hi (by omega))
        · exact List.Perm.refl _
    · exact List.Perm.refl _

theorem heapDownF_getD_high :
    ∀ (fuel : Nat) (pq : PriorityQueue) (i n k : Nat) (d : Node), n ≤ k →
      (heapDownF fuel pq i n).getD k d = pq.getD k d := by
  intro fuel
  induction fuel with
  | zero => intro pq i n k d _; rfl
  | succ fuel ih =>
    intro pq i n k d hk
    simp only [heapDownF]
    split
    · next hj1 =>
      split
      · next hb =>
        have hj : 2 * i + 1 + 1 < n := by
          rcases Bool.and_eq_true_iff.mp hb with ⟨h1, _⟩
          exact of_decide_eq_true h1
        split
        · rw [ih _ _ n k d hk, swapA_getD_of_ne] <;> omega
        · rfl
      · split
        · rw [ih _ _ n k d hk, swapA_getD_of_ne] <;> omega
        · rfl
    · rfl

theorem heapUpF_size :
    ∀ (fuel : Nat) (pq : PriorityQueue) (j : Nat),
      (heapUpF fuel pq j).size = pq.size := by
  intro fuel
  induction fuel with
  | zero => intro pq j; rfl
  | succ fuel ih =>
    intro pq j
    simp only [heapUpF]
    repeat' split
    all_goals simp [ih, swapA_size]

theorem heapUpF_perm :
    ∀ (fuel : Nat) (pq : PriorityQueue) (j : Nat), j < pq.size →
      (heapUpF fuel pq j).toList.Perm pq.toList := by
  intro fuel
  induction fuel with
  | zero => intro pq j _; exact List.Perm.refl _
  | succ fuel ih =>
    intro pq j hj
    simp only [heapUpF]
    split
    · exact List.Perm.refl _
    · next hne =>
      split
      · have hij : (j - 1) / 2 < j := by omega
        exact (ih _ _ (by rw [swapA_size]; omega)).trans
          (swapA_perm pq _ j (by omega) hj)
      · exact List.Perm.refl _

theorem foldDown_size (n : Nat) :
    ∀ (is : List Nat) (pq : PriorityQueue),
      (is.foldl (fun a i => heapDown a i n) pq).size = pq.size := by
  intro is
  induction is with
  | nil => intro pq; rfl
  | cons i is ih =>
    intro pq
    simp only [List.foldl_cons]
    rw [ih, heapDown, heapDownF_size]

theorem foldDown_perm (n : Nat) :
    ∀ (is : List Nat) (pq : PriorityQueue), n ≤ pq.size →
      (is.foldl (fun a i => heapDown a i n) pq).toList.Perm pq.toList := by
  intro is
  induction is with
  | nil => intro pq _; exact List.Perm.refl _
  | cons i is ih =>
    intro pq hn
    simp only [List.foldl_cons]
    exact (ih _ (by rw [heapDown, heapDownF_size]; exact hn)).trans
      (heapDownF_perm _ _ _ _ hn)

theorem heapInit_size (pq : PriorityQueue) : (heapInit pq).size = pq.size := by
  simp only [heapInit]
  exact foldDown_size pq.size _ pq

theorem heapInit_perm (pq : PriorityQueue) : (heapInit pq).toList.Perm pq.toList := by
  simp only [heapInit]
  exact foldDown_perm pq.size _ pq (Nat.le_refl _)

theorem heapPush_size (pq : PriorityQueue) (x : Node) :
    (heapPush pq x).size = pq.size + 1 := by
  simp [heapPush, heapUp, heapUpF_size]

theorem heapPush_perm (pq : PriorityQueue) (x : Node) :
    (heapPush pq x).toList.Perm (x :: pq.toList) := by
  have h1 : (heapPush pq x).toList.Perm (pq.push x).toList := by
    simp only [heapPush, heapUp]
    exact heapUpF_perm _ _ _ (by simp [Array.size_push])
  have h2 : (pq.push x).toList = pq.toList ++ [x] := Array.push_data pq x
  exact h1.trans (h2 ▸ List.perm_append_singleton x pq.toList)

theorem heapPop_fst (pq : PriorityQueue) (h : 0 < pq.size) :
    (heapPop pq).1 = pq.getD 0 dfltNode := by
  show (heapDown (swapA pq 0 (pq.size - 1)) 0 (pq.size - 1)).getD (pq.size - 1) dfltNode = _
  rw [heapDown, heapDownF_getD_high _ _ _ _ _ _ (Nat.le_refl _)]
  rw [arr_getD_eq_list,
    show ∀ (l : List Node), l.getD (pq.size - 1) dfltNode
      = (l.get? (pq.size - 1)).getD dfltNode from fun _ => rfl,
    swapA_toList,
    List.get?_set_eq_of_lt _ (by simpa using Nat.sub_lt h Nat.one_pos),
    Option.getD_some, arr_getD_eq_list]

theorem heapPop_size (pq : PriorityQueue) :
    (heapPop pq).2.size = pq.size - 1 := by
  show (heapDown (swapA pq 0 (pq.size - 1)) 0 (pq.size - 1)).pop.size = _
  rw [Array.size_pop, heapDown, heapDownF_size, swapA_size]

theorem heapPop_perm (pq : PriorityQueue) (h : 0 < pq.size) :
    pq.toList.Perm ((heapPop pq).1 :: (heapPop pq).2.toList) := by
  have hn : pq.size - 1 < pq.size := Nat.sub_lt h Nat.one_pos
  have asize : (heapDown (swapA pq 0 (pq.size - 1)) 0 (pq.size - 1)).size = pq.size := by
    rw [heapDown, heapDownF_size, swapA_size]
  have aperm : (heapDown (swapA pq 0 (pq.size - 1)) 0 (pq.size - 1)).toList.Perm pq.toList :=
    (heapDownF_perm _ _ _ _ (by rw [swapA_size]; omega)).trans (swapA_perm pq 0 _ h hn)
  obtain ⟨ys, y, hysy⟩ : ∃ ys y,
      (heapDown (swapA pq 0 (pq.size - 1)) 0 (pq.size - 1)).toList = ys ++ [y] := by
    cases hr : (heapDown (swapA pq 0 (pq.size - 1)) 0 (pq.size - 1)).toList.reverse with
    | nil =>
      exfalso
      have h0 : (heapDown (swapA pq 0 (pq.size - 1)) 0 (pq.size - 1)).toList.length = 0 := by
        rw [← List.length_reverse, hr]; rfl
      have : pq.size = 0 := by rw [← asize]; exact h0
      omega
    | cons a t =>
      refine ⟨t.reverse, a, ?_⟩
      rw [← List.reverse_reverse
        (heapDown (swapA pq 0 (pq.size - 1)) 0 (pq.size - 1)).toList, hr]
      simp
  have hyslen : ys.length = pq.size - 1 := by
    have : (heapDown (swapA pq 0 (pq.size - 1)) 0 (pq.size - 1)).toList.length = pq.size :=
      asize
    rw [hysy] at this
    simp at this
    omega
  have hfst : (heapPop pq).1 = y := by
    show (heapDown (swapA pq 0 (pq.size - 1)) 0 (pq.size - 1)).getD (pq.size - 1) dfltNode = y
    rw [arr_getD_eq_list,
      show ∀ (l : List Node), l.getD (pq.size - 1) dfltNode
        = (l.get? (pq.size - 1)).getD dfltNode from fun _ => rfl,
      hysy, ← hyslen, List.get?_concat_length, Option.getD_some]
  have hsnd : (heapPop pq).2.toList = ys := by
    show (heapDown (swapA pq 0 (pq.size - 1)) 0 (pq.size - 1)).pop.toList = ys
    show (heapDown (swapA pq 0 (pq.size - 1)) 0 (pq.size - 1)).toList.dropLast = ys
    rw [hysy, List.dropLast_concat]
  rw [hfst, hsnd]
  refine aperm.symm.trans ?_
  rw [hysy]
  exact List.perm_append_singleton _ _

/-- `InitializeHeap` builds a queue of exactly the leaf nodes of `enum`. -/
theorem InitializeHeap_size (enum : List (String × Nat)) :
    (InitializeHeap enum).size = enum.length := by
  show (heapInit _).size = _
  rw [heapInit_size]
  simp

theorem InitializeHeap_perm (enum : List (String × Nat)) :
    (InitializeHeap enum).toList.Perm
      (enum.map (fun p => Node.mk p.1 p.2 .nil .nil)) := by
  show (heapInit _).toList.Perm _
  have := heapInit_perm ((enum.map (fun p => Node.mk p.1 p.2 .nil .nil)).toArray)
  simpa using this

theorem wellFormedB_isMkB {t : Node} (h : t.wellFormedB = true) : t.isMkB = true := by
  cases t with
  | nil => simp [Node.wellFormedB] at h
  | mk v f l r => rfl

/-- Main invariant of the `BuildHuffmanTree` loop: from a non-empty queue
of well-formed trees it produces a single well-formed tree whose leaf
fringe is the union of the fringes of the queue entries, with one new
internal node per merge. -/
theorem buildLoop_spec :
    ∀ (fuel : Nat) (pq : PriorityQueue), 0 < pq.size → pq.size ≤ fuel + 1 →
      (∀ t ∈ pq.toList, t.wellFormedB = true) →
      ∃ root : Node,
        (buildLoop fuel pq).toList = [root] ∧
        root.wellFormedB = true ∧
        root.leaves.Perm (pq.toList.map Node.leaves).flatten ∧
        root.leafCount = (pq.toList.map Node.leafCount).sum ∧
        root.internalCount = (pq.toList.map Node.internalCount).sum + (pq.size - 1) := by
  intro fuel
  induction fuel with
  | zero =>
    intro pq h0 hf hwf
    have hps : pq.size = 1 := by omega
    have hs : pq.toList.length = 1 := hps
    obtain ⟨x, hx⟩ := List.length_eq_one.mp hs
    exact ⟨x, hx, hwf x (by simp [hx]), by simp [hx], by simp [hx], by simp [hx, hps]⟩
  | succ fuel ih =>
    intro pq h0 hf hwf
    by_cases h1 : 1 < pq.size
    · have e : buildLoop (fuel + 1) pq
          = buildLoop fuel
              (heapPush (heapPop (heapPop pq).2).2
                (Node.mk "" ((heapPop pq).1.frequency + (heapPop (heapPop pq).2).1.frequency)
                  (heapPop pq).1 (heapPop (heapPop pq).2).1)) := by
        simp only [buildLoop, if_pos h1]
      have hp1 : pq.toList.Perm ((heapPop pq).1 :: (heapPop pq).2.toList) :=
        heapPop_perm pq h0
      have hsz1 : (heapPop pq).2.size = pq.size - 1 := heapPop_size pq
      have h02 : 0 < (heapPop pq).2.size := by omega
      have hp2 : (heapPop pq).2.toList.Perm
          ((heapPop (heapPop pq).2).1 :: (heapPop (heapPop pq).2).2.toList) :=
        heapPop_perm _ h02
      have hsz2 : (heapPop (heapPop pq).2).2.size = pq.size - 2 := by
        rw [heapPop_size]; omega
      have hall : pq.toList.Perm
          ((heapPop pq).1 :: (heapPop (heapPop pq).2).1
            :: (heapPop (heapPop pq).2).2.toList) :=
        hp1.trans (List.Perm.cons _ hp2)
      have hm1 : (heapPop pq).1 ∈ pq.toList := hall.mem_iff.mpr (by simp)
      have hm2 : (heapPop (heapPop pq).2).1 ∈ pq.toList := hall.mem_iff.mpr (by simp)
      have hsub : ∀ t ∈ (heapPop (heapPop pq).2).2.toList, t ∈ pq.toList := by
        intro t ht
        exact hall.mem_iff.mpr (by simp [ht])
      have wf1 : (heapPop pq).1.wellFormedB = true := hwf _ hm1
      have wf2 : (heapPop (heapPop pq).2).1.wellFormedB = true := hwf _ hm2
      obtain ⟨v1, f1, l1, r1, e1⟩ : ∃ v f l r, (heapPop pq).1 = Node.mk v f l r := by
        cases hx : (heapPop pq).1 with
        | nil => rw [hx] at wf1; simp [Node.wellFormedB] at wf1
        | mk v f l r => exact ⟨v, f, l, r, rfl⟩
      obtain ⟨v2, f2, l2, r2, e2⟩ : ∃ v f l r, (heapPop (heapPop pq).2).1 = Node.mk v f l r := by
        cases hx : (heapPop (heapPop pq).2).1 with
        | nil => rw [hx] at wf2; simp [Node.wellFormedB] at wf2
        | mk v f l r => exact ⟨v, f, l, r, rfl⟩
      have wfnew : (Node.mk ""
          ((heapPop pq).1.frequency + (heapPop (heapPop pq).2).1.frequency)
          (heapPop pq).1 (heapPop (heapPop pq).2).1).wellFormedB = true := by
        rw [e1, e2]
        rw [e1] at wf1
        rw [e2] at wf2
        simp [Node.wellFormedB, Node.isMkB, Node.frequency, wf1, wf2]
      have hq'perm : (heapPush (heapPop (heapPop pq).2).2
          (Node.mk "" ((heapPop pq).1.frequency + (heapPop (heapPop pq).2).1.frequency)
            (heapPop pq).1 (heapPop (heapPop pq).2).1)).toList.Perm
          ((Node.mk "" ((heapPop pq).1.frequency + (heapPop (heapPop pq).2).1.frequency)
            (heapPop pq).1 (heapPop (heapPop pq).2).1) :: (heapPop (heapPop pq).2).2.toList) :=
        heapPush_perm _ _
      have hq'size : (heapPush (heapPop (heapPop pq).2).2
          (Node.mk "" ((heapPop pq).1.frequency + (heapPop (heapPop pq).2).1.frequency)
            (heapPop pq).1 (heapPop (heapPop pq).2).1)).size = pq.size - 1 := by
        rw [heapPush_size, hsz2]; omega
      have hwf' : ∀ t ∈ (heapPush (heapPop (heapPop pq).2).2
          (Node.mk "" ((heapPop pq).1.frequency + (heapPop (heapPop pq).2).1.frequency)
            (heapPop pq).1 (heapPop (heapPop pq).2).1)).toList, t.wellFormedB = true := by
        intro t ht
        rcases List.mem_cons.mp (hq'perm.mem_iff.mp ht) with hcase | hcase
        · rw [hcase]; exact wfnew
        · exact hwf t (hsub t hcase)
      obtain ⟨root, hr1, hr2, hr3, hr4, hr5⟩ :=
        ih _ (by omega) (by omega) hwf'
      refine ⟨root, by rw [e]; exact hr1, hr2, ?_, ?_, ?_⟩
      · -- leaves
        refine hr3.trans ?_
        have hstep := (hq'perm.map Node.leaves).flatten
        refine hstep.trans ?_
        have hback := ((hall.symm.map Node.leaves).flatten :
          (((heapPop pq).1 :: (heapPop (heapPop pq).2).1
            :: (heapPop (heapPop pq).2).2.toList).map Node.leaves).flatten.Perm
            (pq.toList.map Node.leaves).flatten)
        refine List.Perm.trans ?_ hback
        rw [e1, e2]
        simp only [List.map_cons, List.flatten_cons]
        have : (Node.mk "" ((Node.mk v1 f1 l1 r1).frequency + (Node.mk v2 f2 l2 r2).frequency)
            (Node.mk v1 f1 l1 r1) (Node.mk v2 f2 l2 r2)).leaves
            = (Node.mk v1 f1 l1 r1).leaves ++ (Node.mk v2 f2 l2 r2).leaves := by
          simp [Node.leaves]
        rw [this, List.append_assoc]
      · -- leaf count
        rw [hr4, (hq'perm.map Node.leafCount).sum_eq,
          (hall.map Node.leafCount).sum_eq]
        rw [e1, e2]
        simp only [List.map_cons, List.sum_cons]
        have : (Node.mk "" ((Node.mk v1 f1 l1 r1).frequency + (Node.mk v2 f2 l2 r2).frequency)
            (Node.mk v1 f1 l1 r1) (Node.mk v2 f2 l2 r2)).leafCount
            = (Node.mk v1 f1 l1 r1).leafCount + (Node.mk v2 f2 l2 r2).leafCount := by
          simp [Node.leafCount]
        rw [this]
        omega
      · -- internal count
        rw [hr5, (hq'perm.map Node.internalCount).sum_eq,
          (hall.map Node.internalCount).sum_eq, hq'size]
        rw [e1, e2]
        simp only [List.map_cons, List.sum_cons]
        have : (Node.mk "" ((Node.mk v1 f1 l1 r1).frequency + (Node.mk v2 f2 l2 r2).frequency)
            (Node.mk v1 f1 l1 r1) (Node.mk v2 f2 l2 r2)).internalCount
            = 1 + (Node.mk v1 f1 l1 r1).internalCount
              + (Node.mk v2 f2 l2 r2).internalCount := by
          simp [Node.internalCount]
        rw [this]
        omega
    · have hps : pq.size = 1 := by omega
      have hs : pq.toList.length = 1 := hps
      obtain ⟨x, hx⟩ := List.length_eq_one.mp hs
      have e : buildLoop (fuel + 1) pq = pq := by
        simp only [buildLoop, if_neg h1]
      exact ⟨x, by rw [e]; exact hx, hwf x (by simp [hx]), by simp [hx],
        by simp [hx], by simp [hx, hps]⟩

/-! ## The two code emitters compute `assignAll` over `codesOf` -/

theorem codesOf_node (v : String) (f : Nat) (l r : Node) (c : String)
    (h : ¬ (l = Node.nil ∧ r = Node.nil)) :
    codesOf (Node.mk v f l r) c = codesOf l (c ++ "0") ++ codesOf r (c ++ "1") := by
  cases l <;> cases r <;> simp_all [codesOf]

theorem one_le_esize (n : Node) : 1 ≤ n.esize := by
  cases n <;> simp [Node.esize] <;> omega

theorem assignAll_append (codes : List (String × String))
    (l₁ l₂ : List (String × String)) :
    assignAll codes (l₁ ++ l₂) = assignAll (assignAll codes l₁) l₂ :=
  List.foldl_append _ _ _ _

theorem iterLoopF_eq_assignAll :
    ∀ (fuel : Nat) (stack : List (Node × String)) (codes : List (String × String)),
      (stack.map (fun p => p.1.esize)).sum ≤ fuel →
      iterLoopF fuel stack codes
        = assignAll codes ((stack.map (fun p => codesOf p.1 p.2)).flatten) := by
  intro fuel
  induction fuel with
  | zero =>
    intro stack codes hm
    cases stack with
    | nil => rfl
    | cons p rest =>
      exfalso
      have h1 := one_le_esize p.1
      simp only [List.map_cons, List.sum_cons] at hm
      omega
  | succ fuel ih =>
    intro stack codes hm
    cases stack with
    | nil => rfl
    | cons p rest =>
      obtain ⟨n, c⟩ := p
      simp only [List.map_cons, List.sum_cons] at hm
      cases n with
      | nil =>
        simp only [iterLoopF]
        rw [ih rest codes (by simp only [Node.esize] at hm; omega)]
        simp [codesOf]
      | mk v f l r =>
        by_cases hleaf : l = Node.nil ∧ r = Node.nil
        · obtain ⟨hl, hr⟩ := hleaf
          subst hl; subst hr
          simp only [iterLoopF, if_pos (⟨rfl, rfl⟩ : Node.nil = Node.nil
            ∧ Node.nil = Node.nil)]
          rw [ih rest _ (by simp only [Node.esize] at hm; omega)]
          simp only [codesOf, List.map_cons, List.flatten_cons,
            List.singleton_append]
          rfl
        · simp only [iterLoopF, if_neg hleaf]
          rw [ih ((l, c ++ "0") :: (r, c ++ "1") :: rest) codes
            (by simp only [List.map_cons, List.sum_cons, Node.esize] at hm ⊢; omega)]
          simp only [List.map_cons, List.flatten_cons, codesOf_node v f l r c hleaf,
            List.append_assoc]

theorem generateHuffmanCodesIterative_eq (root : Node) :
    generateHuffmanCodesIterative root = assignAll [] (codesOf root "") := by
  show iterLoopF root.esize [(root, "")] [] = _
  rw [iterLoopF_eq_assignAll root.esize [(root, "")] [] (by simp)]
  simp

theorem generateHuffmanCodesRecursive_eq (root : Node) :
    ∀ (code : String) (codes : List (String × String)),
      generateHuffmanCodesRecursive root code codes = assignAll codes (codesOf root code) := by
  induction root with
  | nil => intro c codes; rfl
  | mk v f l r ihl ihr =>
    intro c codes
    by_cases hleaf : l = Node.nil ∧ r = Node.nil
    · obtain ⟨hl, hr⟩ := hleaf
      subst hl; subst hr
      simp [generateHuffmanCodesRecursive, codesOf, assignAll]
    · rw [show generateHuffmanCodesRecursive (Node.mk v f l r) c codes
          = generateHuffmanCodesRecursive r (c ++ "1")
              (generateHuffmanCodesRecursive l (c ++ "0") codes) from by
        simp [generateHuffmanCodesRecursive, hleaf]]
      rw [ihl, ihr, codesOf_node v f l r c hleaf, assignAll_append]

/-! ## The frequency map -/

theorem buildFrequencyMap_append (cmds : List String) (c : String) :
    buildFrequencyMap (cmds ++ [c]) = incr (buildFrequencyMap cmds) c := by
  simp [buildFrequencyMap, List.foldl_append]

theorem mem_keys_incr (m : List (String × Nat)) (k s : String) :
    s ∈ (incr m k).map Prod.fst ↔ s ∈ m.map Prod.fst ∨ s = k := by
  induction m with
  | nil => simp [incr]
  | cons p rest ih =>
    obtain ⟨k', v⟩ := p
    by_cases h : k' = k
    · subst h
      simp [incr]
      tauto
    · simp [incr, h, ih]
      tauto

theorem nodup_keys_incr (m : List (String × Nat)) (k : String)
    (h : (m.map Prod.fst).Nodup) : ((incr m k).map Prod.fst).Nodup := by
  induction m with
  | nil => simp [incr]
  | cons p rest ih =>
    obtain ⟨k', v⟩ := p
    by_cases hk : k' = k
    · subst hk
      simpa [incr] using h
    · simp only [incr, if_neg hk, List.map_cons, List.nodup_cons] at h ⊢
      refine ⟨?_, ih h.2⟩
      intro hc
      rcases (mem_keys_incr rest k k').mp hc with hc | hc
      · exact h.1 hc
      · exact hk hc

theorem lookupCount_incr_self (m : List (String × Nat)) (k : String) :
    lookupCount (incr m k) k = lookupCount m k + 1 := by
  induction m with
  | nil => simp [incr, lookupCount]
  | cons p rest ih =>
    obtain ⟨k', v⟩ := p
    by_cases hk : k' = k
    · subst hk
      simp [incr, lookupCount]
    · simp [incr, hk, lookupCount, ih]

theorem lookupCount_incr_ne (m : List (String × Nat)) (k s : String) (h : s ≠ k) :
    lookupCount (incr m k) s = lookupCount m s := by
  induction m with
  | nil => simp [incr, lookupCount, Ne.symm h]
  | cons p rest ih =>
    obtain ⟨k', v⟩ := p
    by_cases hk : k' = k
    · subst hk
      simp [incr, lookupCount, Ne.symm h]
    · by_cases hs : k' = s
      · subst hs
        simp [incr, hk, lookupCount]
      · simp [incr, hk, lookupCount, hs, ih]

theorem sum_incr (m : List (String × Nat)) (k : String) :
    ((incr m k).map Prod.snd).sum = (m.map Prod.snd).sum + 1 := by
  induction m with
  | nil => simp [incr]
  | cons p rest ih =>
    obtain ⟨k', v⟩ := p
    by_cases hk : k' = k
    · subst hk
      simp [incr]
      omega
    · simp [incr, hk, ih]
      omega

theorem pos_incr (m : List (String × Nat)) (k : String)
    (h : ∀ p ∈ m, 0 < p.2) : ∀ p ∈ incr m k, 0 < p.2 := by
  induction m with
  | nil =>
    intro p hp
    simp [incr] at hp
    simp [hp]
  | cons q rest ih =>
    obtain ⟨k', v⟩ := q
    intro p hp
    by_cases hk : k' = k
    · subst hk
      simp only [incr, if_pos rfl] at hp
      rcases List.mem_cons.mp hp with hc | hc
      · have := h (k', v) (by simp)
        simp [hc]
      · exact h p (by simp [hc])
    · simp only [incr, if_neg hk] at hp
      rcases List.mem_cons.mp hp with hc | hc
      · exact h p (by simp [hc])
      · exact ih (fun q hq => h q (by simp [hq])) p hc

theorem freqMap_keys_nodup (cmds : List String) :
    ((buildFrequencyMap cmds).map Prod.fst).Nodup := by
  induction cmds using List.reverseRecOn with
  | nil => simp [buildFrequencyMap]
  | append_singleton l a ih =>
    rw [buildFrequencyMap_append]
    exact nodup_keys_incr _ a ih

theorem freqMap_mem_keys (cmds : List String) (s : String) :
    s ∈ (buildFrequencyMap cmds).map Prod.fst ↔ s ∈ cmds := by
  induction cmds using List.reverseRecOn with
  | nil => simp [buildFrequencyMap]
  | append_singleton l a ih =>
    rw [buildFrequencyMap_append, mem_keys_incr, ih]
    simp

theorem freqMap_lookup (cmds : List String) (s : String) :
    lookupCount (buildFrequencyMap cmds) s = cmds.count s := by
  induction cmds using List.reverseRecOn with
  | nil => simp [buildFrequencyMap, lookupCount]
  | append_singleton l a ih =>
    rw [buildFrequencyMap_append]
    by_cases h : s = a
    · subst h
      rw [lookupCount_incr_self, ih]
      simp [List.count_append]
    · rw [lookupCount_incr_ne _ _ _ h, ih]
      simp [List.count_append, List.count_singleton, h]

theorem freqMap_sum (cmds : List String) :
    ((buildFrequencyMap cmds).map Prod.snd).sum = cmds.length := by
  induction cmds using List.reverseRecOn with
  | nil => simp [buildFrequencyMap]
  | append_singleton l a ih =>
    rw [buildFrequencyMap_append, sum_incr, ih]
    simp

theorem freqMap_pos (cmds : List String) :
    ∀ p ∈ buildFrequencyMap cmds, 0 < p.2 := by
  induction cmds using List.reverseRecOn with
  | nil => simp [buildFrequencyMap]
  | append_singleton l a ih =>
    rw [buildFrequencyMap_append]
    exact pos_incr _ a ih

theorem lookupCount_of_mem_nodup (m : List (String × Nat)) (p : String × Nat)
    (hnd : (m.map Prod.fst).Nodup) (hp : p ∈ m) : lookupCount m p.1 = p.2 := by
  induction m with
  | nil => simp at hp
  | cons q rest ih =>
    obtain ⟨k, v⟩ := q
    simp only [List.map_cons, List.nodup_cons] at hnd
    rcases List.mem_cons.mp hp with hc | hc
    · subst hc
      simp [lookupCount]
    · have hne : k ≠ p.1 := by
        intro he
        exact hnd.1 (he ▸ (List.mem_map.mpr ⟨p, hc, rfl⟩))
      simp [lookupCount, hne, ih hnd.2 hc]

/-! ## Pipeline lemmas -/

theorem buildLoop_of_size_le_one :
    ∀ (fuel : Nat) (pq : PriorityQueue), pq.size ≤ 1 → buildLoop fuel pq = pq := by
  intro fuel
  cases fuel with
  | zero => intro pq _; rfl
  | succ fuel =>
    intro pq h
    simp only [buildLoop, if_neg (by omega : ¬ 1 < pq.size)]

theorem BuildHuffmanTree_spec (pq : PriorityQueue) (h0 : 0 < pq.size)
    (hwf : ∀ t ∈ pq.toList, t.wellFormedB = true) :
    ∃ root : Node,
      BuildHuffmanTree pq = some root ∧
      root.wellFormedB = true ∧
      root.leaves.Perm (pq.toList.map Node.leaves).flatten ∧
      root.leafCount = (pq.toList.map Node.leafCount).sum ∧
      root.internalCount = (pq.toList.map Node.internalCount).sum + (pq.size - 1) := by
  obtain ⟨root, h1, h2, h3, h4, h5⟩ :=
    buildLoop_spec pq.size pq h0 (Nat.le_succ _) hwf
  refine ⟨root, ?_, h2, h3, h4, h5⟩
  show (buildLoop pq.size pq).toList[0]? = some root
  rw [h1]
  rfl

theorem flatten_map_singleton {α β : Type} (f : α → β) (l : List α) :
    (l.map (fun a => [f a])).flatten = l.map f := by
  induction l with
  | nil => rfl
  | cons a t ih => simp [ih]

theorem initializeHeap_wf (enum : List (String × Nat)) :
    ∀ t ∈ (InitializeHeap enum).toList, t.wellFormedB = true := by
  intro t ht
  have := (InitializeHeap_perm enum).mem_iff.mp ht
  obtain ⟨p, _, hp⟩ := List.mem_map.mp this
  rw [← hp]
  rfl

theorem leaves_node (v : String) (f : Nat) (l r : Node)
    (h : ¬ (l = Node.nil ∧ r = Node.nil)) :
    (Node.mk v f l r).leaves = l.leaves ++ r.leaves := by
  simp [Node.leaves, h]

/-- For a non-empty frequency-map enumeration, `BuildHuffmanTree` on the
initialized heap yields a well-formed tree whose leaf fringe is exactly
the enumerated keys, with one internal node fewer than leaves. -/
theorem huffmanRoot_spec (enum : List (String × Nat)) (h0 : enum ≠ []) :
    ∃ root : Node,
      BuildHuffmanTree (InitializeHeap enum) = some root ∧
      root.wellFormedB = true ∧
      root.leaves.Perm (enum.map Prod.fst) ∧
      root.leafCount = enum.length ∧
      root.internalCount = enum.length - 1 := by
  have hsz : (InitializeHeap enum).size = enum.length := InitializeHeap_size enum
  have hpos : 0 < (InitializeHeap enum).size := by
    rw [hsz]
    exact List.length_pos.mpr h0
  obtain ⟨root, h1, h2, h3, h4, h5⟩ :=
    BuildHuffmanTree_spec (InitializeHeap enum) hpos (initializeHeap_wf enum)
  have hperm := InitializeHeap_perm enum
  refine ⟨root, h1, h2, ?_, ?_, ?_⟩
  · refine h3.trans ?_
    refine ((hperm.map Node.leaves).flatten).trans ?_
    rw [List.map_map]
    have : (Node.leaves ∘ fun p : String × Nat => Node.mk p.1 p.2 .nil .nil)
        = fun p : String × Nat => [p.1] := by
      funext p
      rfl
    rw [this, flatten_map_singleton (fun p : String × Nat => p.1)]
  · rw [h4, (hperm.map Node.leafCount).sum_eq, List.map_map]
    have : (Node.leafCount ∘ fun p : String × Nat => Node.mk p.1 p.2 .nil .nil)
        = fun _ : String × Nat => 1 := by
      funext p
      rfl
    rw [this]
    simp [List.sum_replicate, List.map_const]
  · rw [h5, (hperm.map Node.internalCount).sum_eq, List.map_map, hsz]
    have : (Node.internalCount ∘ fun p : String × Nat => Node.mk p.1 p.2 .nil .nil)
        = fun _ : String × Nat => 0 := by
      funext p
      rfl
    rw [this]
    simp [List.map_const]

theorem codesOf_keys (t : Node) : ∀ (c : String),
    (codesOf t c).map Prod.fst = t.leaves := by
  induction t with
  | nil => intro c; rfl
  | mk v f l r ihl ihr =>
    intro c
    by_cases hleaf : l = Node.nil ∧ r = Node.nil
    · obtain ⟨hl, hr⟩ := hleaf
      subst hl; subst hr
      rfl
    · rw [codesOf_node v f l r c hleaf, leaves_node v f l r hleaf]
      simp [ihl, ihr]

theorem mapAssign_notmem (m : List (String × String)) (k v : String)
    (h : k ∉ m.map Prod.fst) : mapAssign m k v = m ++ [(k, v)] := by
  induction m with
  | nil => rfl
  | cons p rest ih =>
    obtain ⟨k', v'⟩ := p
    simp only [List.map_cons, List.mem_cons] at h
    push_neg at h
    simp only [mapAssign, if_neg (Ne.symm h.1)]
    rw [ih h.2]
    simp

theorem assignAll_of_fresh :
    ∀ (l m : List (String × String)), ((l.map Prod.fst).Nodup) →
      (∀ k ∈ l.map Prod.fst, k ∉ m.map Prod.fst) →
      assignAll m l = m ++ l := by
  intro l
  induction l with
  | nil => intro m _ _; simp [assignAll]
  | cons p rest ih =>
    intro m hnd hdis
    obtain ⟨k, v⟩ := p
    simp only [List.map_cons, List.nodup_cons] at hnd
    have hstep : assignAll m ((k, v) :: rest) = assignAll (mapAssign m k v) rest := rfl
    rw [hstep, mapAssign_notmem m k v (hdis k (by simp))]
    rw [ih (m ++ [(k, v)]) hnd.2 ?_]
    · simp
    · intro k' hk'
      simp only [List.map_append, List.mem_append]
      push_neg
      constructor
      · exact hdis k' (by simp [hk'])
      · intro hc
        simp at hc
        exact hnd.1 (hc ▸ hk')

theorem assignAll_nil_of_nodup (l : List (String × String))
    (h : (l.map Prod.fst).Nodup) : assignAll [] l = l := by
  rw [assignAll_of_fresh l [] h (by simp)]
  rfl

/-- If the leaf values of the tree are distinct, the iterative emitter
returns exactly the depth-first list of (symbol, code) pairs. -/
theorem generateHuffmanCodesIterative_eq_codesOf (root : Node)
    (h : root.leaves.Nodup) :
    generateHuffmanCodesIterative root = codesOf root "" := by
  rw [generateHuffmanCodesIterative_eq, assignAll_nil_of_nodup]
  rw [codesOf_keys]
  exact h

/-! ## Claim theorems: C9, C10, C1, C2 -/

/-- C9: frequency aggregation is correct: the frequency map built by
`GetCodesFromListOfCommands` has exactly one entry per distinct symbol of
the input sequence (its keys are duplicate-free and are exactly the
symbols of the sequence), every stored count is the positive number of
occurrences of its key, and the counts sum to the sequence length. -/
theorem frequency_aggregation_correct (cmds : List String) :
    ((buildFrequencyMap cmds).map Prod.fst).Nodup
    ∧ (∀ s, s ∈ (buildFrequencyMap cmds).map Prod.fst ↔ s ∈ cmds)
    ∧ (∀ p ∈ buildFrequencyMap cmds, p.2 = cmds.count p.1 ∧ 0 < p.2)
    ∧ ((buildFrequencyMap cmds).map Prod.snd).sum = cmds.length := by
  refine ⟨freqMap_keys_nodup cmds, freqMap_mem_keys cmds, ?_, freqMap_sum cmds⟩
  intro p hp
  constructor
  · rw [← lookupCount_of_mem_nodup _ p (freqMap_keys_nodup cmds) hp]
    exact freqMap_lookup cmds p.1
  · exact freqMap_pos cmds p hp

/-- C10: the iterative and the recursive code emitters agree: for every
tree node (including nil), `generateHuffmanCodesIterative` returns
exactly the map that `generateHuffmanCodesRecursive` fills in when
started from the same root with the empty accumulated code and an empty
map. -/
theorem iterative_eq_recursive (root : Node) :
    generateHuffmanCodesIterative root = generateHuffmanCodesRecursive root "" [] := by
  rw [generateHuffmanCodesIterative_eq, generateHuffmanCodesRecursive_eq]

/-- C1 (counterexample): the generator is NOT deterministic.  On the
input `["A", "B"]` both `[("A",1),("B",1)]` and `[("B",1),("A",1)]` are
possible iteration orders of Go's randomized `for range` over the
frequency map (`EnumOf`), and they produce different CodeTables (the code
of `"A"` is `"0"` in one run and `"1"` in the other). -/
theorem codes_depend_on_map_iteration_order :
    EnumOf ["A", "B"] [("A", 1), ("B", 1)]
    ∧ EnumOf ["A", "B"] [("B", 1), ("A", 1)]
    ∧ GetCodesFromListOfCommands (some ["A", "B"]) [("A", 1), ("B", 1)]
        = some [("A", "0"), ("B", "1")]
    ∧ GetCodesFromListOfCommands (some ["A", "B"]) [("B", 1), ("A", 1)]
        = some [("B", "0"), ("A", "1")]
    ∧ (GetCodesFromListOfCommands (some ["A", "B"]) [("A", 1), ("B", 1)]).map
        (fun t => lookupTbl t "A")
      ≠ (GetCodesFromListOfCommands (some ["A", "B"]) [("B", 1), ("A", 1)]).map
        (fun t => lookupTbl t "A") := by
  refine ⟨by unfold EnumOf; decide, by unfold EnumOf; decide, by decide, by decide, by decide⟩

/-- C2 (failing input): a zero-length input slice is NOT handled totally.
A nil slice returns the empty table, but a non-nil empty slice (the only
valid map enumeration for it being the empty one) reaches
`(*pq)[0]` on an empty priority queue inside `BuildHuffmanTree`, an
index-out-of-range panic — modelled as the `none` result. -/
theorem empty_slice_panics :
    GetCodesFromListOfCommands none [] = some []
    ∧ EnumOf [] []
    ∧ (∀ enum, EnumOf [] enum → enum = [])
    ∧ GetCodesFromListOfCommands (some []) [] = none := by
  refine ⟨rfl, by unfold EnumOf; decide, ?_, by decide⟩
  intro enum he
  have : enum.Perm [] := he
  exact List.Perm.eq_nil this

/-! ## Prefix-freedom of the emitted codes -/

theorem pfxB_iff : ∀ (a b : List Char), pfxB a b = true ↔ a <+: b := by
  intro a
  induction a with
  | nil => intro b; simp [pfxB, List.nil_prefix]
  | cons x as ih =>
    intro b
    cases b with
    | nil => simp [pfxB]
    | cons y bs =>
      by_cases hxy : x = y
      · subst hxy
        simp [pfxB, List.cons_prefix_cons, ih]
      · simp [pfxB, hxy, List.cons_prefix_cons]

theorem append_cons_not_pfx (c : List Char) (x y : Char) (r s : List Char)
    (hxy : x ≠ y) : ¬ (c ++ x :: r) <+: (c ++ y :: s) := by
  intro hcon
  rw [List.prefix_append_right_inj, List.cons_prefix_cons] at hcon
  exact hxy hcon.1

theorem codesOf_extends (t : Node) : ∀ (c : String) (p : String × String),
    p ∈ codesOf t c → ∃ rest, p.2.data = c.data ++ rest := by
  induction t with
  | nil => intro c p hp; simp [codesOf] at hp
  | mk v f l r ihl ihr =>
    intro c p hp
    by_cases hleaf : l = Node.nil ∧ r = Node.nil
    · obtain ⟨hl, hr⟩ := hleaf
      subst hl; subst hr
      simp [codesOf] at hp
      subst hp
      exact ⟨[], by simp⟩
    · rw [codesOf_node v f l r c hleaf] at hp
      rcases List.mem_append.mp hp with hc | hc
      · obtain ⟨rest, hrest⟩ := ihl _ p hc
        refine ⟨'0' :: rest, ?_⟩
        rw [hrest]
        show _ = c.data ++ ('0' :: rest)
        rw [show (c ++ "0").data = c.data ++ ['0'] from rfl]
        simp
      · obtain ⟨rest, hrest⟩ := ihr _ p hc
        refine ⟨'1' :: rest, ?_⟩
        rw [hrest]
        rw [show (c ++ "1").data = c.data ++ ['1'] from rfl]
        simp

/-- Codes emitted for distinct leaves of the tree are never prefixes of
one another: paths to distinct leaves diverge. -/
theorem codesOf_pairwise_not_pfx (t : Node) : ∀ (c : String),
    (codesOf t c).Pairwise
      (fun p q => ¬ p.2.data <+: q.2.data ∧ ¬ q.2.data <+: p.2.data) := by
  induction t with
  | nil => intro c; simp [codesOf]
  | mk v f l r ihl ihr =>
    intro c
    by_cases hleaf : l = Node.nil ∧ r = Node.nil
    · obtain ⟨hl, hr⟩ := hleaf
      subst hl; subst hr
      simp [codesOf]
    · rw [codesOf_node v f l r c hleaf]
      rw [List.pairwise_append]
      refine ⟨ihl _, ihr _, ?_⟩
      intro p hp q hq
      obtain ⟨rp, hrp⟩ := codesOf_extends l _ p hp
      obtain ⟨rq, hrq⟩ := codesOf_extends r _ q hq
      rw [show (c ++ "0").data = c.data ++ ['0'] from rfl] at hrp
      rw [show (c ++ "1").data = c.data ++ ['1'] from rfl] at hrq
      constructor
      · rw [hrp, hrq]
        simp only [List.append_assoc, List.singleton_append]
        exact append_cons_not_pfx c.data '0' '1' rp rq (by decide)
      · rw [hrp, hrq]
        simp only [List.append_assoc, List.singleton_append]
        exact append_cons_not_pfx c.data '1' '0' rq rp (by decide)

theorem two_le_length_of_nodup {α : Type} (l : List α) (a b : α)
    (ha : a ∈ l) (hb : b ∈ l) (hab : a ≠ b) : 2 ≤ l.length := by
  cases l with
  | nil => simp at ha
  | cons x t =>
    cases t with
    | nil =>
      simp at ha hb
      exact absurd (ha.trans hb.symm) hab
    | cons y u => simp

theorem freqMap_ne_nil (cmds : List String) (h : cmds ≠ []) :
    buildFrequencyMap cmds ≠ [] := by
  obtain ⟨c, rest, hc⟩ := List.exists_cons_of_ne_nil h
  intro hcon
  have : c ∈ (buildFrequencyMap cmds).map Prod.fst :=
    (freqMap_mem_keys cmds c).mpr (by simp [hc])
  rw [hcon] at this
  simp at this

/-- The common shape of a successful run: for non-empty input and a
valid map enumeration, the returned table is exactly `codesOf root ""`
for the tree `root` built by `BuildHuffmanTree`. -/
theorem getCodes_run (cmds : List String) (h : cmds ≠ [])
    (enum : List (String × Nat)) (he : EnumOf cmds enum) :
    ∃ root : Node,
      BuildHuffmanTree (InitializeHeap enum) = some root ∧
      root.wellFormedB = true ∧
      root.leaves.Perm (enum.map Prod.fst) ∧
      root.leaves.Nodup ∧
      root.leafCount = enum.length ∧
      root.internalCount = enum.length - 1 ∧
      GetCodesFromListOfCommands (some cmds) enum = some (codesOf root "") := by
  have hbne : buildFrequencyMap cmds ≠ [] := freqMap_ne_nil cmds h
  have hene : enum ≠ [] := by
    intro hcon
    exact hbne (List.Perm.symm (hcon ▸ he)).eq_nil
  obtain ⟨root, h1, h2, h3, h4, h5⟩ := huffmanRoot_spec enum hene
  have hkeysperm : (enum.map Prod.fst).Perm ((buildFrequencyMap cmds).map Prod.fst) :=
    he.map Prod.fst
  have hnodup : root.leaves.Nodup :=
    ((h3.trans hkeysperm).nodup_iff).mpr (freqMap_keys_nodup cmds)
  refine ⟨root, h1, h2, h3, hnodup, h4, h5, ?_⟩
  show (match BuildHuffmanTree (InitializeHeap enum) with
    | none => none
    | some root => some (generateHuffmanCodesIterative root)) = _
  rw [h1]
  show some (generateHuffmanCodesIterative root) = _
  rw [generateHuffmanCodesIterative_eq_codesOf root hnodup]

theorem properPfxB_false_of_not_pfx (a b : String) (h : ¬ a.data <+: b.data) :
    properPfxB a b = false := by
  unfold properPfxB
  have hfalse : pfxB a.data b.data = false := by
    cases hx : pfxB a.data b.data
    · rfl
    · exact absurd ((pfxB_iff _ _).mp hx) h
  rw [hfalse]
  rfl

theorem bfm_const (s : String) :
    ∀ (cmds : List String), cmds ≠ [] → (∀ c ∈ cmds, c = s) →
      buildFrequencyMap cmds = [(s, cmds.length)] := by
  intro cmds
  induction cmds using List.reverseRecOn with
  | nil => intro hc; exact absurd rfl hc
  | append_singleton l a ih =>
    intro _ hall
    have ha : a = s := hall a (by simp)
    subst ha
    by_cases hl : l = []
    · subst hl
      simp [buildFrequencyMap, incr]
    · rw [buildFrequencyMap_append, ih hl (fun c hc => hall c (by simp [hc]))]
      simp [incr]

/-! ## Claim theorems: C4, C5, C6, C7, C8 -/

/-- C5: key completeness: for every non-empty input sequence and every
possible map-enumeration order, each distinct symbol of the sequence
appears exactly once as a key of the returned CodeTable (the key list is
duplicate-free), and no other key appears. -/
theorem codeTable_keys_complete (cmds : List String) (h : cmds ≠ [])
    (enum : List (String × Nat)) (he : EnumOf cmds enum) :
    ∃ table, GetCodesFromListOfCommands (some cmds) enum = some table
      ∧ (table.map Prod.fst).Nodup
      ∧ (∀ s, s ∈ table.map Prod.fst ↔ s ∈ cmds) := by
  obtain ⟨root, _, _, h3, hnd, _, _, h6⟩ := getCodes_run cmds h enum he
  refine ⟨codesOf root "", h6, ?_, ?_⟩
  · rw [codesOf_keys]
    exact hnd
  · intro s
    rw [codesOf_keys, h3.mem_iff, (he.map Prod.fst).mem_iff]
    exact freqMap_mem_keys cmds s

/-- Witness for C5 at a concrete input. -/
theorem codeTable_keys_complete_witness :
    (["A", "B", "A"] : List String) ≠ []
    ∧ EnumOf ["A", "B", "A"] [("A", 2), ("B", 1)]
    ∧ ∃ table,
        GetCodesFromListOfCommands (some ["A", "B", "A"]) [("A", 2), ("B", 1)] = some table
        ∧ (table.map Prod.fst).Nodup
        ∧ (∀ s, s ∈ table.map Prod.fst ↔ s ∈ (["A", "B", "A"] : List String)) :=
  ⟨by decide, by unfold EnumOf; decide,
    codeTable_keys_complete ["A", "B", "A"] (by decide) [("A", 2), ("B", 1)]
      (by unfold EnumOf; decide)⟩

/-- C4: prefix-freedom: for every input sequence with at least two
distinct symbols and every possible map-enumeration order, no code in
the returned CodeTable is a proper prefix of another code in the table. -/
theorem codeTable_prefix_free (cmds : List String) (a b : String)
    (ha : a ∈ cmds) (hb : b ∈ cmds) (hab : a ≠ b)
    (enum : List (String × Nat)) (he : EnumOf cmds enum) :
    ∃ table, GetCodesFromListOfCommands (some cmds) enum = some table
      ∧ table.Pairwise
          (fun p q => properPfxB p.2 q.2 = false ∧ properPfxB q.2 p.2 = false) := by
  have h : cmds ≠ [] := by
    intro hcon
    rw [hcon] at ha
    simp at ha
  obtain ⟨root, _, _, _, _, _, _, h6⟩ := getCodes_run cmds h enum he
  refine ⟨codesOf root "", h6, ?_⟩
  refine (codesOf_pairwise_not_pfx root "").imp ?_
  intro p q hpq
  exact ⟨properPfxB_false_of_not_pfx _ _ hpq.1, properPfxB_false_of_not_pfx _ _ hpq.2⟩

/-- Witness for C4 at a concrete input. -/
theorem codeTable_prefix_free_witness :
    ("A" : String) ∈ (["A", "B"] : List String)
    ∧ ("B" : String) ∈ (["A", "B"] : List String)
    ∧ ("A" : String) ≠ "B"
    ∧ EnumOf ["A", "B"] [("A", 1), ("B", 1)]
    ∧ ∃ table,
        GetCodesFromListOfCommands (some ["A", "B"]) [("A", 1), ("B", 1)] = some table
        ∧ table.Pairwise
            (fun p q => properPfxB p.2 q.2 = false ∧ properPfxB q.2 p.2 = false) :=
  ⟨by decide, by decide, by decide, by unfold EnumOf; decide,
    codeTable_prefix_free ["A", "B"] "A" "B" (by decide) (by decide) (by decide)
      [("A", 1), ("B", 1)] (by unfold EnumOf; decide)⟩

/-- C6: the single-distinct-symbol degenerate case: a non-empty input
whose symbols are all equal to `s` yields, for every possible
map-enumeration order, the CodeTable with the single entry `s ↦ ""`. -/
theorem single_symbol_degenerate (cmds : List String) (s : String)
    (h : cmds ≠ []) (hall : ∀ c ∈ cmds, c = s)
    (enum : List (String × Nat)) (he : EnumOf cmds enum) :
    GetCodesFromListOfCommands (some cmds) enum = some [(s, "")] := by
  have hbfm : buildFrequencyMap cmds = [(s, cmds.length)] := bfm_const s cmds h hall
  have he' : enum.Perm [(s, cmds.length)] := by
    have : enum.Perm (buildFrequencyMap cmds) := he
    rwa [hbfm] at this
  have henum : enum = [(s, cmds.length)] := he'.eq_singleton
  subst henum
  have hlist : (InitializeHeap [(s, cmds.length)]).toList
      = [Node.mk s cmds.length .nil .nil] :=
    (InitializeHeap_perm [(s, cmds.length)]).eq_singleton
  have hbt : BuildHuffmanTree (InitializeHeap [(s, cmds.length)])
      = some (Node.mk s cmds.length .nil .nil) := by
    show (buildLoop (InitializeHeap [(s, cmds.length)]).size
      (InitializeHeap [(s, cmds.length)])).toList[0]? = _
    rw [buildLoop_of_size_le_one _ _ (by rw [InitializeHeap_size]; simp)]
    rw [hlist]
    rfl
  show (match BuildHuffmanTree (InitializeHeap [(s, cmds.length)]) with
    | none => none
    | some root => some (generateHuffmanCodesIterative root)) = _
  rw [hbt]
  show some (generateHuffmanCodesIterative (Node.mk s cmds.length .nil .nil)) = _
  rw [generateHuffmanCodesIterative_eq]
  rfl

/-- Witness for C6 at a concrete input. -/
theorem single_symbol_degenerate_witness :
    (["X", "X"] : List String) ≠ []
    ∧ (∀ c ∈ (["X", "X"] : List String), c = "X")
    ∧ EnumOf ["X", "X"] [("X", 2)]
    ∧ GetCodesFromListOfCommands (some ["X", "X"]) [("X", 2)] = some [("X", "")] :=
  ⟨by decide, by decide, by unfold EnumOf; decide,
    single_symbol_degenerate ["X", "X"] "X" (by decide) (by decide) [("X", 2)]
      (by unfold EnumOf; decide)⟩

/-- C7: the concrete scenario: on the input
`["LEFT","GRAB","LEFT","BACK","LEFT","BACK","LEFT"]` (frequencies
LEFT=4, BACK=2, GRAB=1) every possible map-enumeration order yields the
CodeTable `GRAB ↦ "00"`, `BACK ↦ "01"`, `LEFT ↦ "1"` — the codes named
by the specification, with lengths 2/2/1. -/
theorem concrete_scenario (enum : List (String × Nat))
    (he : EnumOf ["LEFT", "GRAB", "LEFT", "BACK", "LEFT", "BACK", "LEFT"] enum) :
    GetCodesFromListOfCommands
      (some ["LEFT", "GRAB", "LEFT", "BACK", "LEFT", "BACK", "LEFT"]) enum
      = some [("GRAB", "00"), ("BACK", "01"), ("LEFT", "1")] := by
  have hall : ∀ e ∈ (buildFrequencyMap
      ["LEFT", "GRAB", "LEFT", "BACK", "LEFT", "BACK", "LEFT"]).permutations',
      GetCodesFromListOfCommands
        (some ["LEFT", "GRAB", "LEFT", "BACK", "LEFT", "BACK", "LEFT"]) e
        = some [("GRAB", "00"), ("BACK", "01"), ("LEFT", "1")] := by decide
  exact hall enum (List.mem_permutations'.mpr he)

/-- Witness for C7 at a concrete enumeration order. -/
theorem concrete_scenario_witness :
    EnumOf ["LEFT", "GRAB", "LEFT", "BACK", "LEFT", "BACK", "LEFT"]
      [("LEFT", 4), ("GRAB", 1), ("BACK", 2)]
    ∧ GetCodesFromListOfCommands
        (some ["LEFT", "GRAB", "LEFT", "BACK", "LEFT", "BACK", "LEFT"])
        [("LEFT", 4), ("GRAB", 1), ("BACK", 2)]
        = some [("GRAB", "00"), ("BACK", "01"), ("LEFT", "1")] :=
  ⟨by unfold EnumOf; decide,
    concrete_scenario [("LEFT", 4), ("GRAB", 1), ("BACK", 2)]
      (by unfold EnumOf; decide)⟩

/-- C8: tree-shape invariant: for every frequency table with at least 2
entries, `BuildHuffmanTree` returns a tree with exactly `N` leaves and
`N - 1` internal nodes, in which every internal node has exactly two
(non-nil) children and carries the sum of its children's frequencies
(`wellFormedB`). -/
theorem tree_shape_invariant (enum : List (String × Nat)) (h : 2 ≤ enum.length) :
    ∃ root : Node,
      BuildHuffmanTree (InitializeHeap enum) = some root
      ∧ root.leafCount = enum.length
      ∧ root.internalCount = enum.length - 1
      ∧ root.wellFormedB = true := by
  obtain ⟨root, h1, h2, _, h4, h5⟩ := huffmanRoot_spec enum
    (by intro hcon; rw [hcon] at h; simp at h)
  exact ⟨root, h1, h4, h5, h2⟩

/-- Witness for C8 at a concrete frequency table. -/
theorem tree_shape_invariant_witness :
    2 ≤ ([("a", 1), ("b", 2)] : List (String × Nat)).length
    ∧ ∃ root : Node,
        BuildHuffmanTree (InitializeHeap [("a", 1), ("b", 2)]) = some root
        ∧ root.leafCount = ([("a", 1), ("b", 2)] : List (String × Nat)).length
        ∧ root.internalCount = ([("a", 1), ("b", 2)] : List (String × Nat)).length - 1
        ∧ root.wellFormedB = true :=
  ⟨by decide, tree_shape_invariant [("a", 1), ("b", 2)] (by decide)⟩

/-! ## Heap-index (Desc) lemmas -/

theorem Desc.le {r a : Nat} (h : Desc r a) : r ≤ a := by
  induction h with
  | refl => exact Nat.le_refl _
  | left _ ih => omega
  | right _ ih => omega

theorem Desc.parent_step {r a : Nat} (h : Desc r a) :
    r = a ∨ (0 < a ∧ Desc r ((a - 1) / 2)) := by
  cases h with
  | refl => exact Or.inl rfl
  | @left j h =>
    refine Or.inr ⟨by omega, ?_⟩
    have he : (2 * j + 1 - 1) / 2 = j := by omega
    rwa [he]
  | @right j h =>
    refine Or.inr ⟨by omega, ?_⟩
    have he : (2 * j + 2 - 1) / 2 = j := by omega
    rwa [he]

theorem Desc.total {a : Nat} : ∀ {r r' : Nat}, Desc r a → Desc r' a →
    Desc r r' ∨ Desc r' r := by
  induction a using Nat.strong_induction_on with
  | _ a ih =>
    intro r r' h h'
    rcases h.parent_step with hcase | ⟨hpos, hps⟩
    · subst hcase
      exact Or.inr h'
    · rcases h'.parent_step with hcase' | ⟨_, hps'⟩
      · subst hcase'
        exact Or.inl h
      · exact ih ((a - 1) / 2) (by omega) hps hps'

theorem Desc.zero (a : Nat) : Desc 0 a := by
  induction a using Nat.strong_induction_on with
  | _ a ih =>
    cases a with
    | zero => exact Desc.refl 0
    | succ m =>
      have hp : Desc 0 (m / 2) := ih (m / 2) (by omega)
      rcases Nat.even_or_odd m with ⟨t, ht⟩ | ⟨t, ht⟩
      · have : m + 1 = 2 * (m / 2) + 1 := by omega
        rw [this]
        exact Desc.left hp
      · have : m + 1 = 2 * (m / 2) + 2 := by omega
        rw [this]
        exact Desc.right hp

theorem Desc.children_of_ne {r a : Nat} (h : Desc r a) (hne : a ≠ r) :
    Desc (2 * r + 1) a ∨ Desc (2 * r + 2) a := by
  induction h with
  | refl => exact absurd rfl hne
  | @left j h ih =>
    by_cases hji : j = r
    · subst hji
      exact Or.inl (Desc.refl _)
    · rcases ih hji with hc | hc
      · exact Or.inl (Desc.left hc)
      · exact Or.inr (Desc.left hc)
  | @right j h ih =>
    by_cases hji : j = r
    · subst hji
      exact Or.inr (Desc.refl _)
    · rcases ih hji with hc | hc
      · exact Or.inl (Desc.right hc)
      · exact Or.inr (Desc.right hc)

theorem Desc.sibling_disjoint {i a : Nat}
    (h1 : Desc (2 * i + 1) a) (h2 : Desc (2 * i + 2) a) : False := by
  rcases Desc.total h1 h2 with hc | hc
  · rcases hc.parent_step with he | ⟨_, hps⟩
    · omega
    · have := hps.le
      omega
  · rcases hc.parent_step with he | ⟨_, hps⟩
    · omega
    · have := hps.le
      omega

theorem Desc.not_child_of_root {i c : Nat} (hc : c = 2 * i + 1 ∨ c = 2 * i + 2) :
    ¬ Desc c i := by
  intro h
  have := h.le
  omega

/-- In a subheap, the root has the smallest frequency of the subtree. -/
theorem SubHeap.root_min {pq : PriorityQueue} {n r : Nat} (hs : SubHeap pq n r) :
    ∀ k, Desc r k → k < n → freqAt pq r ≤ freqAt pq k := by
  intro k hk
  induction hk with
  | refl => intro _; exact Nat.le_refl _
  | @left j h ih =>
    intro hlt
    have hj : j < n := by omega
    exact (ih hj).trans (hs j _ h (Or.inl rfl) hlt)
  | @right j h ih =>
    intro hlt
    have hj : j < n := by omega
    exact (ih hj).trans (hs j _ h (Or.inr rfl) hlt)

/-- Subtrees of a subheap are subheaps. -/
theorem SubHeap.descend {pq : PriorityQueue} {n r r' : Nat}
    (hs : SubHeap pq n r) (h : Desc r r') : SubHeap pq n r' := by
  intro j k hj hk hkn
  refine hs j k ?_ hk hkn
  clear hk hkn
  induction hj with
  | refl => exact h
  | left _ ih => exact Desc.left ih
  | right _ ih => exact Desc.right ih

/-- A subheap rooted at or beyond `n` is trivial. -/
theorem SubHeap.of_le {pq : PriorityQueue} {n r : Nat} (h : n ≤ 2 * r + 1) :
    SubHeap pq n r := by
  intro j k hj hk hkn
  have hrj := hj.le
  omega

theorem Desc.trans {a b c : Nat} (h1 : Desc a b) (h2 : Desc b c) : Desc a c := by
  induction h2 with
  | refl => exact h1
  | left _ ih => exact Desc.left ih
  | right _ ih => exact Desc.right ih

theorem less_iff (pq : PriorityQueue) (i j : Nat) :
    less pq i j = true ↔ freqAt pq i < freqAt pq j := by
  simp [less, freqAt]

theorem swapA_getD_fst (pq : PriorityQueue) (i j : Nat)
    (hi : i < pq.size) (hj : j < pq.size) :
    (swapA pq i j).getD i dfltNode = pq.getD j dfltNode := by
  by_cases hij : i = j
  · subst hij
    rw [arr_getD_eq_list,
      show ∀ (l : List Node), l.getD i dfltNode = (l.get? i).getD dfltNode from
        fun _ => rfl, swapA_toList,
      List.get?_set_eq_of_lt _ (by simpa using hi), Option.getD_some, arr_getD_eq_list]
  · rw [arr_getD_eq_list,
      show ∀ (l : List Node), l.getD i dfltNode = (l.get? i).getD dfltNode from
        fun _ => rfl, swapA_toList,
      List.get?_set_ne _ _ (Ne.symm hij),
      List.get?_set_eq_of_lt _ (by simpa using hi), Option.getD_some, arr_getD_eq_list]

theorem swapA_getD_snd (pq : PriorityQueue) (i j : Nat) (hj : j < pq.size) :
    (swapA pq i j).getD j dfltNode = pq.getD i dfltNode := by
  rw [arr_getD_eq_list,
    show ∀ (l : List Node), l.getD j dfltNode = (l.get? j).getD dfltNode from
      fun _ => rfl, swapA_toList,
    List.get?_set_eq_of_lt _ (by simpa using hj), Option.getD_some, arr_getD_eq_list]

theorem SubHeap.congr {pq pq' : PriorityQueue} {n r : Nat}
    (heq : ∀ k, Desc r k → k < n → freqAt pq' k = freqAt pq k)
    (hs : SubHeap pq n r) : SubHeap pq' n r := by
  intro m k hm hk hkn
  have hkd : Desc r k := by
    rcases hk with hk | hk
    · exact hk ▸ Desc.left hm
    · exact hk ▸ Desc.right hm
  have hmn : m < n := by omega
  rw [heq m hm hmn, heq k hkd hkn]
  exact hs m k hm hk hkn

/-- One step of `down` (the chosen child is `js`) satisfies `DownSpec`,
assuming the fuel-smaller calls do. -/
theorem heapDownF_subtree_step (fuel : Nat)
    (IH : ∀ (pq : PriorityQueue) (i n : Nat), n ≤ pq.size → n ≤ fuel + i →
      SubHeap pq n (2 * i + 1) → SubHeap pq n (2 * i + 2) →
      DownSpec pq (heapDownF fuel pq i n) n i)
    (pq : PriorityQueue) (i n js : Nat)
    (hs : n ≤ pq.size) (hfuel : n ≤ fuel + 1 + i)
    (hsub1 : SubHeap pq n (2 * i + 1)) (hsub2 : SubHeap pq n (2 * i + 2))
    (hjs : js = 2 * i + 1 ∨ js = 2 * i + 2) (hjslt : js < n)
    (hmin : ∀ c, (c = 2 * i + 1 ∨ c = 2 * i + 2) → c < n →
      freqAt pq js ≤ freqAt pq c) :
    DownSpec pq
      (if less pq js i = true then heapDownF fuel (swapA pq i js) js n else pq)
      n i := by
  have hiln : i < n := by omega
  have hdij : Desc i js := by
    rcases hjs with h | h
    · exact h ▸ Desc.left (Desc.refl i)
    · exact h ▸ Desc.right (Desc.refl i)
  by_cases hless : less pq js i = true
  · rw [if_pos hless]
    have hisz : i < pq.size := by omega
    have hjssz : js < pq.size := by omega
    have hgi : (swapA pq i js).getD i dfltNode = pq.getD js dfltNode :=
      swapA_getD_fst pq i js hisz hjssz
    have hgjs : (swapA pq i js).getD js dfltNode = pq.getD i dfltNode :=
      swapA_getD_snd pq i js hjssz
    have hid : SubHeap pq n js := by
      rcases hjs with h | h
      · exact h ▸ hsub1
      · exact h ▸ hsub2
    have hcongr : ∀ r', js < r' →
        (∀ k, Desc r' k → k < n → freqAt (swapA pq i js) k = freqAt pq k) := by
      intro r' hr' k hk _
      have hkge : r' ≤ k := hk.le
      unfold freqAt
      rw [swapA_getD_of_ne]
      · omega
      · omega
    have hrec := IH (swapA pq i js) js n (by rw [swapA_size]; exact hs)
      (by omega)
      (SubHeap.congr (hcongr (2 * js + 1) (by omega))
        (hid.descend (Desc.left (Desc.refl js))))
      (SubHeap.congr (hcongr (2 * js + 2) (by omega))
        (hid.descend (Desc.right (Desc.refl js))))
    obtain ⟨hrS, hrU, hrV⟩ := hrec
    have hnotdji : ¬ Desc js i := by
      intro hcon
      have := hcon.le
      omega
    have hvi : (heapDownF fuel (swapA pq i js) js n).getD i dfltNode
        = pq.getD js dfltNode := by
      rw [hrU i (Or.inl hnotdji), hgi]
    refine ⟨?_, ?_, ?_⟩
    · -- SubHeap of the result at i
      intro m c hm hc hcn
      by_cases hmi : m = i
      · rw [hmi]
        rw [hmi] at hc
        by_cases hcjs : c = js
        · rw [hcjs]
          obtain ⟨k₁, hk₁d, hk₁n, hk₁e⟩ := hrV js (Desc.refl js) hjslt
          show freqAt _ i ≤ freqAt _ js
          unfold freqAt
          rw [hvi, hk₁e]
          by_cases hk₁js : k₁ = js
          · rw [hk₁js, hgjs]
            have := (less_iff pq js i).mp hless
            unfold freqAt at this
            omega
          · have hk₁i : k₁ ≠ i := by
              intro he
              have := hk₁d.le
              omega
            rw [swapA_getD_of_ne pq i js k₁ dfltNode hk₁i hk₁js]
            exact hid.root_min k₁ hk₁d hk₁n
        · have hnotdjc : ¬ Desc js c := by
            intro hcon
            rcases hjs with h | h <;> rcases hc with h' | h'
            · exact hcjs (by omega)
            · refine Desc.sibling_disjoint (i := i) (a := c) ?_ ?_
              · rw [← h]; exact hcon
              · rw [← h']; exact Desc.refl _
            · refine Desc.sibling_disjoint (i := i) (a := c) ?_ ?_
              · rw [← h']; exact Desc.refl _
              · rw [← h]; exact hcon
            · exact hcjs (by omega)
          have hvc : (heapDownF fuel (swapA pq i js) js n).getD c dfltNode
              = pq.getD c dfltNode := by
            rw [hrU c (Or.inl hnotdjc), swapA_getD_of_ne pq i js c dfltNode
              (by omega) hcjs]
          show freqAt _ i ≤ freqAt _ c
          unfold freqAt
          rw [hvi, hvc]
          exact hmin c hc hcn
      · rcases Desc.children_of_ne hm hmi with hcase | hcase
        all_goals
          by_cases hdjm : Desc js m
          · exact hrS m c hdjm hc hcn
          · -- m lies in the other child's subtree; everything untouched
            have hoth : (js = 2 * i + 1 ∧ Desc (2 * i + 2) m)
                ∨ (js = 2 * i + 2 ∧ Desc (2 * i + 1) m) := by
              rcases hjs with h | h
              · refine Or.inl ⟨h, ?_⟩
                first
                  | (exact hcase)
                  | (exact absurd (h ▸ hcase) hdjm)
              · refine Or.inr ⟨h, ?_⟩
                first
                  | (exact hcase)
                  | (exact absurd (h ▸ hcase) hdjm)
            have hdc : Desc i c := by
              have hdic : Desc i m := hm
              rcases hc with h | h
              · exact h ▸ Desc.left hdic
              · exact h ▸ Desc.right hdic
            have hdothc : ¬ Desc js c := by
              intro hcon
              rcases hoth with ⟨h, hdm⟩ | ⟨h, hdm⟩
              · have hdc' : Desc (2 * i + 2) c := by
                  rcases hc with h' | h'
                  · exact h' ▸ Desc.left hdm
                  · exact h' ▸ Desc.right hdm
                exact Desc.sibling_disjoint (h ▸ hcon) hdc'
              · have hdc' : Desc (2 * i + 1) c := by
                  rcases hc with h' | h'
                  · exact h' ▸ Desc.left hdm
                  · exact h' ▸ Desc.right hdm
                exact Desc.sibling_disjoint hdc' (h ▸ hcon)
            have hmlb : i < m := by
              rcases hoth with ⟨_, hdm⟩ | ⟨_, hdm⟩
              · have hx := hdm.le
                omega
              · have hx := hdm.le
                omega
            have hvm : (heapDownF fuel (swapA pq i js) js n).getD m dfltNode
                = pq.getD m dfltNode := by
              rw [hrU m (Or.inl hdjm), swapA_getD_of_ne pq i js m dfltNode
                (by omega) (by intro he; exact hdjm (he ▸ Desc.refl js))]
            have hclb : i < c := by
              rcases hc with h | h <;> omega
            have hvc : (heapDownF fuel (swapA pq i js) js n).getD c dfltNode
                = pq.getD c dfltNode := by
              rw [hrU c (Or.inl hdothc), swapA_getD_of_ne pq i js c dfltNode
                (by omega) (by intro he; exact hdothc (he ▸ Desc.refl js))]
            show freqAt _ m ≤ freqAt _ c
            unfold freqAt
            rw [hvm, hvc]
            rcases hoth with ⟨_, hdm⟩ | ⟨_, hdm⟩
            · exact hsub2 m c hdm hc hcn
            · exact hsub1 m c hdm hc hcn
    · -- untouched outside the subtree / beyond n
      intro k hk
      rcases hk with hk | hk
      · have hknotjs : ¬ Desc js k := fun hcon => hk (hdij.trans hcon)
        rw [hrU k (Or.inl hknotjs),
          swapA_getD_of_ne pq i js k dfltNode
            (fun he => hk (he ▸ Desc.refl i))
            (fun he => hk (he ▸ hdij))]
      · rw [hrU k (Or.inr hk),
          swapA_getD_of_ne pq i js k dfltNode (by omega) (by omega)]
    · -- values are a rearrangement of subtree values
      intro k hdik hkn
      by_cases hdjk : Desc js k
      · obtain ⟨k₁, hk₁d, hk₁n, hk₁e⟩ := hrV k hdjk hkn
        by_cases hk₁js : k₁ = js
        · subst hk₁js
          exact ⟨i, Desc.refl i, hiln, by rw [hk₁e, hgjs]⟩
        · have hk₁i : k₁ ≠ i := by
            intro he
            have := hk₁d.le
            omega
          exact ⟨k₁, hdij.trans hk₁d, hk₁n,
            by rw [hk₁e, swapA_getD_of_ne pq i js k₁ dfltNode hk₁i hk₁js]⟩
      · by_cases hki : k = i
        · subst hki
          exact ⟨js, hdij, hjslt, by rw [hrU k (Or.inl hnotdji), hgi]⟩
        · refine ⟨k, hdik, hkn, ?_⟩
          rw [hrU k (Or.inl hdjk),
            swapA_getD_of_ne pq i js k dfltNode hki
              (fun he => hdjk (he ▸ Desc.refl js))]
  · rw [if_neg hless]
    refine ⟨?_, fun k _ => rfl, fun k hk hkn => ⟨k, hk, hkn, rfl⟩⟩
    intro m c hm hc hcn
    by_cases hmi : m = i
    · subst hmi
      have hile : freqAt pq m ≤ freqAt pq js := by
        have := (less_iff pq js m).not.mp (by simpa using hless)
        omega
      exact hile.trans (hmin c hc hcn)
    · rcases Desc.children_of_ne hm hmi with hcase | hcase
      · exact hsub1 m c hcase hc hcn
      · exact hsub2 m c hcase hc hcn

theorem heapDownF_subtree :
    ∀ (fuel : Nat) (pq : PriorityQueue) (i n : Nat),
      n ≤ pq.size → n ≤ fuel + i →
      SubHeap pq n (2 * i + 1) → SubHeap pq n (2 * i + 2) →
      DownSpec pq (heapDownF fuel pq i n) n i := by
  intro fuel
  induction fuel with
  | zero =>
    intro pq i n hs hfuel hsub1 hsub2
    exact ⟨SubHeap.of_le (by omega), fun k _ => rfl, fun k hk hkn => ⟨k, hk, hkn, rfl⟩⟩
  | succ fuel ih =>
    intro pq i n hs hfuel hsub1 hsub2
    by_cases hj1 : 2 * i + 1 < n
    · by_cases hb : (decide (2 * i + 1 + 1 < n) && less pq (2 * i + 1 + 1) (2 * i + 1))
          = true
      · obtain ⟨h1, h2⟩ := Bool.and_eq_true_iff.mp hb
        have hjslt : 2 * i + 1 + 1 < n := of_decide_eq_true h1
        simp only [heapDownF]
        rw [if_pos hj1, if_pos hb]
        refine heapDownF_subtree_step fuel ih pq i n (2 * i + 1 + 1) hs hfuel
          hsub1 hsub2 (Or.inr (by omega)) hjslt ?_
        intro c hc hcn
        rcases hc with h | h
        · have hlt := (less_iff pq (2 * i + 1 + 1) (2 * i + 1)).mp h2
          rw [h]
          omega
        · rw [show c = 2 * i + 1 + 1 by omega]
      · simp only [heapDownF]
        rw [if_pos hj1, if_neg hb]
        refine heapDownF_subtree_step fuel ih pq i n (2 * i + 1) hs hfuel
          hsub1 hsub2 (Or.inl rfl) hj1 ?_
        intro c hc hcn
        rcases hc with h | h
        · rw [h]
        · have hcb : 2 * i + 1 + 1 < n := by omega
          have : less pq (2 * i + 1 + 1) (2 * i + 1) = false := by
            cases hx : less pq (2 * i + 1 + 1) (2 * i + 1)
            · rfl
            · exact absurd (by rw [decide_eq_true hcb, hx]; rfl) hb
          have := (less_iff pq (2 * i + 1 + 1) (2 * i + 1)).not.mp (by simp [this])
          rw [h, show 2 * i + 2 = 2 * i + 1 + 1 by omega]
          omega
    · simp only [heapDownF]
      rw [if_neg hj1]
      exact ⟨SubHeap.of_le (by omega), fun k _ => rfl, fun k hk hkn => ⟨k, hk, hkn, rfl⟩⟩

theorem heapDown_subtree (pq : PriorityQueue) (i n : Nat) (hs : n ≤ pq.size)
    (hsub1 : SubHeap pq n (2 * i + 1)) (hsub2 : SubHeap pq n (2 * i + 2)) :
    DownSpec pq (heapDown pq i n) n i :=
  heapDownF_subtree n pq i n hs (by omega) hsub1 hsub2

theorem SubHeap.mono {pq : PriorityQueue} {n n' r : Nat} (h : n' ≤ n)
    (hs : SubHeap pq n r) : SubHeap pq n' r :=
  fun j k hj hk hkn => hs j k hj hk (by omega)

/-- Bottom-up heapify: after the `Init` loop has processed indices
`k-1, …, 0`, every subtree is a heap, provided subtrees rooted at `k` or
beyond already were. -/
theorem initFold_spec :
    ∀ (k : Nat) (pq : PriorityQueue) (n : Nat), n ≤ pq.size →
      (∀ r, k ≤ r → SubHeap pq n r) →
      ∀ r, SubHeap ((List.range k).reverse.foldl (fun a i => heapDown a i n) pq) n r := by
  intro k
  induction k with
  | zero =>
    intro pq n _ hyp r
    exact hyp r (Nat.zero_le r)
  | succ k ih =>
    intro pq n hs hyp r
    have hrange : (List.range (k + 1)).reverse = k :: (List.range k).reverse := by
      rw [List.range_succ]
      simp
    rw [hrange]
    simp only [List.foldl_cons]
    have hdspec := heapDown_subtree pq k n hs
      (hyp (2 * k + 1) (by omega)) (hyp (2 * k + 2) (by omega))
    obtain ⟨hS, hU, hV⟩ := hdspec
    refine ih (heapDown pq k n) n (by rw [heapDown, heapDownF_size]; exact hs) ?_ r
    intro r' hr'
    by_cases hrk : r' = k
    · exact hrk ▸ hS
    · by_cases hdes : Desc k r'
      · exact hS.descend hdes
      · refine SubHeap.congr ?_ (hyp r' (by omega))
        intro x hx _
        have hnx : ¬ Desc k x := by
          intro hcon
          rcases Desc.total hcon hx with hc | hc
          · exact hdes hc
          · have := hc.le
            omega
        unfold freqAt
        rw [hU x (Or.inl hnx)]

/-- `heap.Init` establishes the heap property. -/
theorem heapInit_subheap (pq : PriorityQueue) :
    SubHeap (heapInit pq) (heapInit pq).size 0 := by
  rw [heapInit_size]
  show SubHeap ((List.range (pq.size / 2)).reverse.foldl
    (fun a i => heapDown a i pq.size) pq) pq.size 0
  refine initFold_spec (pq.size / 2) pq pq.size (Nat.le_refl _) ?_ 0
  intro r hr
  exact SubHeap.of_le (by omega)

theorem push_getD_lt (pq : PriorityQueue) (x : Node) (y : Nat) (hy : y < pq.size) :
    (pq.push x).getD y dfltNode = pq.getD y dfltNode := by
  rw [arr_getD_eq_list, arr_getD_eq_list,
    show ∀ (l : List Node), l.getD y dfltNode = (l.get? y).getD dfltNode from
      fun _ => rfl,
    show ∀ (l : List Node), l.getD y dfltNode = (l.get? y).getD dfltNode from
      fun _ => rfl,
    Array.push_toList, List.get?_append (by simpa using hy)]

theorem pop_getD_lt (a : PriorityQueue) (k : Nat) (hk : k < a.size - 1) :
    a.pop.getD k dfltNode = a.getD k dfltNode := by
  rw [arr_getD_eq_list, arr_getD_eq_list,
    show ∀ (l : List Node), l.getD k dfltNode = (l.get? k).getD dfltNode from
      fun _ => rfl,
    show ∀ (l : List Node), l.getD k dfltNode = (l.get? k).getD dfltNode from
      fun _ => rfl]
  show (a.toList.dropLast.get? k).getD dfltNode = _
  rw [List.dropLast_eq_take, List.get?_take (by simpa using hk)]

/-- The `up` loop restores the full heap property from `UpInv`. -/
theorem heapUpF_inv :
    ∀ (fuel : Nat) (a : PriorityQueue) (j : Nat), j < fuel → j < a.size →
      UpInv a j →
      ∀ p c, (c = 2 * p + 1 ∨ c = 2 * p + 2) → c < (heapUpF fuel a j).size →
        freqAt (heapUpF fuel a j) p ≤ freqAt (heapUpF fuel a j) c := by
  intro fuel
  induction fuel with
  | zero => intro a j hj; omega
  | succ fuel ih =>
    intro a j hjf hjs ⟨inv1, inv2⟩
    by_cases hij : (j - 1) / 2 = j
    · simp only [heapUpF, if_pos hij]
      intro p c hc hcs
      refine inv1 p c hc hcs ?_
      intro he
      subst he
      omega
    · by_cases hless : less a j ((j - 1) / 2) = true
      · simp only [heapUpF, if_neg hij, if_pos hless]
        have hj1 : 0 < j := by
          by_contra hcon
          exact hij (by omega)
        have hilt : (j - 1) / 2 < j := by omega
        have hisz : (j - 1) / 2 < a.size := by omega
        refine ih (swapA a ((j - 1) / 2) j) ((j - 1) / 2)
          (by omega) (by rw [swapA_size]; omega) ⟨?_, ?_⟩
        · -- edges except into (j-1)/2
          intro p c hc hcs hci
          rw [swapA_size] at hcs
          have hgi : freqAt (swapA a ((j - 1) / 2) j) ((j - 1) / 2) = freqAt a j := by
            unfold freqAt
            rw [swapA_getD_fst a _ j hisz hjs]
          have hgj : freqAt (swapA a ((j - 1) / 2) j) j = freqAt a ((j - 1) / 2) := by
            unfold freqAt
            rw [swapA_getD_snd a _ j hjs]
          have hother : ∀ y, y ≠ (j - 1) / 2 → y ≠ j →
              freqAt (swapA a ((j - 1) / 2) j) y = freqAt a y := by
            intro y h1 h2
            unfold freqAt
            rw [swapA_getD_of_ne a _ j y dfltNode h1 h2]
          have hpdet : p = (c - 1) / 2 := by omega
          by_cases hcj : c = j
          · have hpi : p = (j - 1) / 2 := by omega
            rw [hcj, hpi, hgi, hgj]
            have := (less_iff a j ((j - 1) / 2)).mp hless
            omega
          · have hcnei : c ≠ (j - 1) / 2 := hci
            by_cases hpi : p = (j - 1) / 2
            · rw [hpi, hgi, hother c hcnei hcj]
              have h1 : freqAt a j < freqAt a ((j - 1) / 2) :=
                (less_iff a j ((j - 1) / 2)).mp hless
              have h2 : freqAt a ((j - 1) / 2) ≤ freqAt a c := by
                refine inv1 ((j - 1) / 2) c ?_ hcs hcj
                omega
              omega
            · by_cases hpj : p = j
              · rw [hpj, hgj, hother c hcnei hcj]
                refine inv2 c ?_ hcs hj1
                omega
              · rw [hother p hpi hpj, hother c hcnei hcj]
                exact inv1 p c hc hcs hcj
        · -- grandparent bound at the new index
          intro c hc hcs hip
          rw [swapA_size] at hcs
          have hgne1 : ((j - 1) / 2 - 1) / 2 ≠ (j - 1) / 2 := by omega
          have hgne2 : ((j - 1) / 2 - 1) / 2 ≠ j := by omega
          have hgval : freqAt (swapA a ((j - 1) / 2) j) (((j - 1) / 2 - 1) / 2)
              = freqAt a (((j - 1) / 2 - 1) / 2) := by
            unfold freqAt
            rw [swapA_getD_of_ne a _ j _ dfltNode hgne1 hgne2]
          have hedge : freqAt a (((j - 1) / 2 - 1) / 2) ≤ freqAt a ((j - 1) / 2) := by
            refine inv1 (((j - 1) / 2 - 1) / 2) ((j - 1) / 2) ?_ (by omega) ?_
            · omega
            · omega
          by_cases hcj : c = j
          · have : freqAt (swapA a ((j - 1) / 2) j) c = freqAt a ((j - 1) / 2) := by
              unfold freqAt
              rw [hcj, swapA_getD_snd a _ j hjs]
            rw [hgval, this]
            exact hedge
          · have hcne : c ≠ (j - 1) / 2 := by omega
            have : freqAt (swapA a ((j - 1) / 2) j) c = freqAt a c := by
              unfold freqAt
              rw [swapA_getD_of_ne a _ j c dfltNode hcne hcj]
            rw [hgval, this]
            refine hedge.trans (inv1 ((j - 1) / 2) c ?_ hcs hcj)
            omega
      · simp only [heapUpF, if_neg hij, if_neg hless]
        intro p c hc hcs
        by_cases hcj : c = j
        · have hpdet : p = (j - 1) / 2 := by omega
          rw [hcj, hpdet]
          have := (less_iff a j ((j - 1) / 2)).not.mp (by simpa using hless)
          omega
        · exact inv1 p c hc hcs hcj

/-- `heap.Push` preserves the heap property. -/
theorem heapPush_subheap (pq : PriorityQueue) (x : Node)
    (hh : SubHeap pq pq.size 0) :
    SubHeap (heapPush pq x) (heapPush pq x).size 0 := by
  have hsz : (pq.push x).size = pq.size + 1 := by simp [Array.size_push]
  have hmain := heapUpF_inv (pq.size + 1) (pq.push x) pq.size (by omega)
    (by omega) ?_
  · intro m k hm hk hkn
    have hres : heapPush pq x = heapUpF (pq.size + 1) (pq.push x) pq.size := by
      show heapUpF ((pq.push x).size - 1 + 1) (pq.push x) ((pq.push x).size - 1) = _
      rw [hsz]
      simp
    rw [hres] at hkn ⊢
    exact hmain m k hk hkn
  · constructor
    · intro p c hc hcs hcj
      rw [hsz] at hcs
      have hclt : c < pq.size := by omega
      have hplt : p < pq.size := by omega
      unfold freqAt
      rw [push_getD_lt pq x c hclt, push_getD_lt pq x p hplt]
      exact hh p c (Desc.zero p) hc hclt
    · intro c hc hcs _
      rw [hsz] at hcs
      omega

/-- `heap.Pop` returns a minimum-frequency element. -/
theorem heapPop_min (pq : PriorityQueue) (hh : SubHeap pq pq.size 0)
    (h0 : 0 < pq.size) :
    ∀ u ∈ pq.toList, ((heapPop pq).1).frequency ≤ u.frequency := by
  rw [heapPop_fst pq h0]
  intro u hu
  obtain ⟨j, hjlt, hje⟩ := List.mem_iff_getElem.mp hu
  have hjsz : j < pq.size := by simpa using hjlt
  have := hh.root_min j (Desc.zero j) hjsz
  unfold freqAt at this
  have hgj : pq.getD j dfltNode = u := by
    rw [arr_getD_eq_list,
      show ∀ (l : List Node), l.getD j dfltNode = (l.get? j).getD dfltNode from
        fun _ => rfl,
      List.get?_eq_get (by simpa using hjlt)]
    simpa using hje
  rw [← hgj]
  exact this

/-- `heap.Pop` preserves the heap property on the remaining elements. -/
theorem heapPop_subheap (pq : PriorityQueue) (hh : SubHeap pq pq.size 0)
    (h0 : 0 < pq.size) :
    SubHeap (heapPop pq).2 (heapPop pq).2.size 0 := by
  rw [heapPop_size]
  have hswsub : ∀ r, r = 1 ∨ r = 2 →
      SubHeap (swapA pq 0 (pq.size - 1)) (pq.size - 1) r := by
    intro r hr
    have hbase : SubHeap pq pq.size r := by
      rcases hr with h | h
      · exact h ▸ hh.descend (Desc.left (Desc.refl 0))
      · exact h ▸ hh.descend (Desc.right (Desc.refl 0))
    refine SubHeap.congr ?_ (hbase.mono (by omega))
    intro k hk hkn
    have h1 : k ≠ 0 := by
      have := hk.le
      omega
    unfold freqAt
    rw [swapA_getD_of_ne pq 0 (pq.size - 1) k dfltNode h1 (by omega)]
  have hdspec := heapDown_subtree (swapA pq 0 (pq.size - 1)) 0 (pq.size - 1)
    (by rw [swapA_size]; omega)
    (by simpa using hswsub 1 (Or.inl rfl))
    (by simpa using hswsub 2 (Or.inr rfl))
  obtain ⟨hS, _, _⟩ := hdspec
  show SubHeap (heapDown (swapA pq 0 (pq.size - 1)) 0 (pq.size - 1)).pop
    (pq.size - 1) 0
  refine SubHeap.congr ?_ hS
  intro k hk hkn
  unfold freqAt
  rw [pop_getD_lt]
  rw [heapDown, heapDownF_size, swapA_size]
  omega

/-! ## Abstract optimality: shapes, fill and cost -/

theorem listGetD_set_self {α : Type} (l : List α) (i : Nat) (v d : α)
    (h : i < l.length) : (l.set i v).getD i d = v := by
  rw [show (l.set i v).getD i d = ((l.set i v).get? i).getD d from rfl,
    List.get?_set_eq_of_lt v h, Option.getD_some]

theorem listGetD_set_ne {α : Type} (l : List α) (i k : Nat) (v d : α)
    (h : i ≠ k) : (l.set i v).getD k d = l.getD k d := by
  rw [show (l.set i v).getD k d = ((l.set i v).get? k).getD d from rfl,
    List.get?_set_ne v l h]
  rfl

theorem Shape.numSlots_pos (s : Shape) : 1 ≤ s.numSlots := by
  induction s with
  | slot => exact Nat.le_refl 1
  | nodeS a b iha ihb => simp [Shape.numSlots]; omega

theorem Shape.depths_length (s : Shape) : s.depths.length = s.numSlots := by
  induction s with
  | slot => rfl
  | nodeS a b iha ihb => simp [Shape.depths, Shape.numSlots, iha, ihb]

theorem Shape.depths_le_maxD (s : Shape) : ∀ x ∈ s.depths, x ≤ s.maxD := by
  induction s with
  | slot => intro x hx; simp [Shape.depths] at hx; simp [hx, Shape.maxD]
  | nodeS a b iha ihb =>
    intro x hx
    simp only [Shape.depths, List.mem_append, List.mem_map] at hx
    simp only [Shape.maxD]
    rcases hx with ⟨y, hy, he⟩ | ⟨y, hy, he⟩
    · have := iha y hy
      omega
    · have := ihb y hy
      omega

theorem BT.weight_fill (s : Shape) : ∀ (l : List BT), l.length = s.numSlots →
    (fill s l).weight = (l.map BT.weight).sum := by
  induction s with
  | slot =>
    intro l hl
    obtain ⟨x, hx⟩ := List.length_eq_one.mp hl
    subst hx
    simp [fill]
  | nodeS a b iha ihb =>
    intro l hl
    simp only [fill, BT.weight]
    rw [iha _ (by rw [List.length_take]; simp [Shape.numSlots] at hl; omega),
      ihb _ (by rw [List.length_drop]; simp [Shape.numSlots] at hl; omega)]
    rw [← List.sum_append, ← List.map_append, List.take_append_drop]

theorem BT.leavesM_fill (s : Shape) : ∀ (l : List BT), l.length = s.numSlots →
    (fill s l).leavesM = (l.map BT.leavesM).sum := by
  induction s with
  | slot =>
    intro l hl
    obtain ⟨x, hx⟩ := List.length_eq_one.mp hl
    subst hx
    simp [fill, BT.leavesM]
  | nodeS a b iha ihb =>
    intro l hl
    simp only [fill, BT.leavesM]
    rw [iha _ (by rw [List.length_take]; simp [Shape.numSlots] at hl; omega),
      ihb _ (by rw [List.length_drop]; simp [Shape.numSlots] at hl; omega)]
    rw [show ∀ (u v : List (Multiset (String × Nat))), u.sum + v.sum = (u ++ v).sum by
      intro u v; rw [List.sum_append], ← List.map_append, List.take_append_drop]

theorem dotD_nil_left (w : List Nat) : dotD [] w = 0 := rfl

theorem dotD_shift (d w : List Nat) (h : d.length = w.length) :
    dotD (d.map (· + 1)) w = dotD d w + w.sum := by
  induction d generalizing w with
  | nil =>
    cases w with
    | nil => rfl
    | cons b bs => simp at h
  | cons a as ih =>
    cases w with
    | nil => simp at h
    | cons b bs =>
      have hlen : as.length = bs.length := by simpa using h
      unfold dotD
      simp only [List.map_cons, List.zipWith_cons_cons, List.sum_cons]
      have h2 := ih bs hlen
      unfold dotD at h2
      rw [h2]
      ring

theorem dotD_append (d1 d2 w1 w2 : List Nat) (h : d1.length = w1.length) :
    dotD (d1 ++ d2) (w1 ++ w2) = dotD d1 w1 + dotD d2 w2 := by
  unfold dotD
  rw [List.zipWith_append _ _ _ _ _ h, List.sum_append]

theorem BT.cost_fill (s : Shape) : ∀ (l : List BT), l.length = s.numSlots →
    (fill s l).cost = dotD s.depths (l.map BT.weight) + (l.map BT.cost).sum := by
  induction s with
  | slot =>
    intro l hl
    obtain ⟨x, hx⟩ := List.length_eq_one.mp hl
    subst hx
    simp [fill, Shape.depths, dotD]
  | nodeS a b iha ihb =>
    intro l hl
    simp only [Shape.numSlots] at hl
    have hta : (l.take a.numSlots).length = a.numSlots := by
      rw [List.length_take]
      omega
    have htb : (l.drop a.numSlots).length = b.numSlots := by
      rw [List.length_drop]
      omega
    simp only [fill, BT.cost, Shape.depths]
    rw [iha _ hta, ihb _ htb, BT.weight_fill a _ hta, BT.weight_fill b _ htb]
    have hsplit : l.map BT.weight
        = (l.take a.numSlots).map BT.weight ++ (l.drop a.numSlots).map BT.weight := by
      rw [← List.map_append, List.take_append_drop]
    rw [hsplit, dotD_append _ _ _ _ (by simp [Shape.depths_length, List.length_map]; omega),
      dotD_shift _ _ (by simp [Shape.depths_length, List.length_map]; omega),
      dotD_shift _ _ (by simp [Shape.depths_length, List.length_map]; omega)]
    have hcostsplit : (l.map BT.cost).sum
        = ((l.take a.numSlots).map BT.cost).sum + ((l.drop a.numSlots).map BT.cost).sum := by
      rw [← List.sum_append, ← List.map_append, List.take_append_drop]
    rw [hcostsplit]
    ring

theorem dotD_eq_sum (d w : List Nat) (h : d.length = w.length) :
    dotD d w = ∑ x ∈ Finset.range w.length, d.getD x 0 * w.getD x 0 := by
  induction d generalizing w with
  | nil =>
    cases w with
    | nil => rfl
    | cons b bs => simp at h
  | cons a as ih =>
    cases w with
    | nil => simp at h
    | cons b bs =>
      have hlen : as.length = bs.length := by simpa using h
      unfold dotD
      simp only [List.zipWith_cons_cons, List.sum_cons, List.length_cons]
      rw [Finset.sum_range_succ']
      have h2 := ih bs hlen
      unfold dotD at h2
      rw [h2]
      simp [List.getD_cons_succ, List.getD_cons_zero]
      ring

theorem dotD_swap_le (d w : List Nat) (i j : Nat)
    (hi : i < w.length) (hj : j < w.length) (hlen : d.length = w.length)
    (hd : d.getD i 0 ≤ d.getD j 0) (hw : w.getD i 0 ≤ w.getD j 0) :
    dotD d ((w.set i (w.getD j 0)).set j (w.getD i 0)) ≤ dotD d w := by
  by_cases hij : i = j
  · subst hij
    have hfix : (w.set i (w.getD i 0)).set i (w.getD i 0) = w := by
      have h1 : w.set i (w.getD i 0) = w := by
        apply List.ext_get
        · simp
        · intro m hm1 hm2
          by_cases hmi : m = i
          · subst hmi
            have := listGetD_set_self w m (w.getD m 0) 0 hi
            rw [show (w.set m (w.getD m 0)).get ⟨m, hm1⟩
              = (w.set m (w.getD m 0)).getD m 0 from ?_, this]
            · rw [show w.get ⟨m, hm2⟩ = w.getD m 0 from ?_]
              rw [show w.getD m 0 = (w.get? m).getD 0 from rfl,
                List.get?_eq_get hm2]
              rfl
            · rw [show (w.set m (w.getD m 0)).getD m 0
                = ((w.set m (w.getD m 0)).get? m).getD 0 from rfl,
                List.get?_eq_get hm1]
              rfl
          · have := listGetD_set_ne w i m (w.getD i 0) 0 (fun he => hmi he.symm)
            rw [show (w.set i (w.getD i 0)).get ⟨m, hm1⟩
              = (w.set i (w.getD i 0)).getD m 0 from ?_, this]
            · rw [show w.getD m 0 = (w.get? m).getD 0 from rfl,
                List.get?_eq_get hm2]
              rfl
            · rw [show (w.set i (w.getD i 0)).getD m 0
                = ((w.set i (w.getD i 0)).get? m).getD 0 from rfl,
                List.get?_eq_get hm1]
              rfl
      rw [h1, h1]
    rw [hfix]
  · have hlen2 : ((w.set i (w.getD j 0)).set j (w.getD i 0)).length = w.length := by
      simp
    rw [dotD_eq_sum d w hlen, dotD_eq_sum d _ (by rw [hlen2]; exact hlen), hlen2]
    have hmem_i : i ∈ Finset.range w.length := Finset.mem_range.mpr hi
    have hmem_j : j ∈ Finset.range w.length := Finset.mem_range.mpr hj
    have hmem_j' : j ∈ (Finset.range w.length).erase i :=
      Finset.mem_erase.mpr ⟨fun he => hij he.symm, hmem_j⟩
    have hsplit : ∀ (f : Nat → Nat),
        ∑ x ∈ Finset.range w.length, f x
          = f i + (f j + ∑ x ∈ ((Finset.range w.length).erase i).erase j, f x) := by
      intro f
      rw [← Finset.add_sum_erase _ f hmem_i, ← Finset.add_sum_erase _ f hmem_j']
    rw [hsplit (fun x => d.getD x 0 * w.getD x 0),
      hsplit (fun x => d.getD x 0 * ((w.set i (w.getD j 0)).set j (w.getD i 0)).getD x 0)]
    have hvi : ((w.set i (w.getD j 0)).set j (w.getD i 0)).getD i 0 = w.getD j 0 := by
      rw [listGetD_set_ne _ j i _ _ (fun he => hij he.symm),
        listGetD_set_self w i _ 0 hi]
    have hvj : ((w.set i (w.getD j 0)).set j (w.getD i 0)).getD j 0 = w.getD i 0 := by
      rw [listGetD_set_self _ j _ 0 (by simpa using hj)]
    have hother : ∀ x ∈ ((Finset.range w.length).erase i).erase j,
        d.getD x 0 * ((w.set i (w.getD j 0)).set j (w.getD i 0)).getD x 0
          = d.getD x 0 * w.getD x 0 := by
      intro x hx
      have h1 := Finset.mem_erase.mp hx
      have h2 := Finset.mem_erase.mp h1.2
      rw [listGetD_set_ne _ j x _ _ (fun he => h1.1 he.symm),
        listGetD_set_ne _ i x _ _ (fun he => h2.1 he.symm)]
    rw [Finset.sum_congr rfl hother, hvi, hvj]
    have hkey : d.getD i 0 * w.getD j 0 + d.getD j 0 * w.getD i 0
        ≤ d.getD i 0 * w.getD i 0 + d.getD j 0 * w.getD j 0 :=
      mul_add_mul_le_mul_add_mul hd hw
    omega

theorem collapse_k_bound {s : Shape} {k : Nat} {s' : Shape}
    (h : Collapse s k s') : k + 2 ≤ s.numSlots := by
  induction h with
  | here => simp [Shape.numSlots]
  | left b _ ih => simp [Shape.numSlots]; have := Shape.numSlots_pos b; omega
  | right a _ ih => simp [Shape.numSlots]; omega

theorem collapse_numSlots {s : Shape} {k : Nat} {s' : Shape}
    (h : Collapse s k s') : s.numSlots = s'.numSlots + 1 := by
  induction h with
  | here => rfl
  | left b _ ih => simp [Shape.numSlots]; omega
  | right a _ ih => simp [Shape.numSlots]; omega

theorem shape_node_facts (s : Shape) (h : s ≠ .slot) :
    2 ≤ s.numSlots ∧ 1 ≤ s.maxD := by
  cases s with
  | slot => exact absurd rfl h
  | nodeS a b =>
    constructor
    · have := Shape.numSlots_pos a
      have := Shape.numSlots_pos b
      simp [Shape.numSlots]
      omega
    · simp [Shape.maxD]

theorem collapse_exists : ∀ (s : Shape), 2 ≤ s.numSlots →
    ∃ k s', Collapse s k s' ∧ s.depths[k]? = some s.maxD
      ∧ s.depths[k + 1]? = some s.maxD := by
  intro s
  induction s with
  | slot => intro h; simp [Shape.numSlots] at h
  | nodeS a b iha ihb =>
    intro _
    by_cases hab : a = .slot ∧ b = .slot
    · obtain ⟨ha, hb⟩ := hab
      subst ha; subst hb
      exact ⟨0, .slot, Collapse.here, by decide, by decide⟩
    · by_cases hrec : b ≠ .slot ∧ a.maxD ≤ b.maxD
      · obtain ⟨hbne, hle⟩ := hrec
        obtain ⟨k, b', hcol, hd1, hd2⟩ := ihb (shape_node_facts b hbne).1
        have hkb := collapse_k_bound hcol
        have hmax : (Shape.nodeS a b).maxD = b.maxD + 1 := by
          simp [Shape.maxD]
          omega
        refine ⟨a.numSlots + k, .nodeS a b', Collapse.right a hcol, ?_, ?_⟩
        · rw [show (Shape.nodeS a b).depths
            = a.depths.map (· + 1) ++ b.depths.map (· + 1) from rfl,
            List.getElem?_append_right
              (by simp [Shape.depths_length]),
            hmax]
          simp only [List.length_map, Shape.depths_length]
          rw [show a.numSlots + k - a.numSlots = k by omega, List.getElem?_map, hd1]
          rfl
        · rw [show (Shape.nodeS a b).depths
            = a.depths.map (· + 1) ++ b.depths.map (· + 1) from rfl,
            List.getElem?_append_right
              (by simp [Shape.depths_length]; omega),
            hmax]
          simp only [List.length_map, Shape.depths_length]
          rw [show a.numSlots + k + 1 - a.numSlots = k + 1 by omega,
            List.getElem?_map, hd2]
          rfl
      · have hane : a ≠ .slot := by
          intro hcon
          by_cases hbs : b = .slot
          · exact hab ⟨hcon, hbs⟩
          · have h1 := (shape_node_facts b hbs).2
            have h2 : a.maxD = 0 := by rw [hcon]; rfl
            exact hrec ⟨hbs, by omega⟩
        have hle : b.maxD ≤ a.maxD := by
          by_cases hbs : b = .slot
          · rw [hbs]
            show 0 ≤ a.maxD
            omega
          · by_contra hcon
            exact hrec ⟨hbs, by omega⟩
        obtain ⟨k, a', hcol, hd1, hd2⟩ := iha (shape_node_facts a hane).1
        have hkb := collapse_k_bound hcol
        have hmax : (Shape.nodeS a b).maxD = a.maxD + 1 := by
          simp [Shape.maxD]
          omega
        refine ⟨k, .nodeS a' b, Collapse.left b hcol, ?_, ?_⟩
        · rw [show (Shape.nodeS a b).depths
            = a.depths.map (· + 1) ++ b.depths.map (· + 1) from rfl,
            List.getElem?_append_left
              (by simp [Shape.depths_length]; omega),
            hmax, List.getElem?_map, hd1]
          rfl
        · rw [show (Shape.nodeS a b).depths
            = a.depths.map (· + 1) ++ b.depths.map (· + 1) from rfl,
            List.getElem?_append_left
              (by simp [Shape.depths_length]; omega),
            hmax, List.getElem?_map, hd2]
          rfl

theorem fill_collapse {s : Shape} {k : Nat} {s' : Shape} (hcol : Collapse s k s') :
    ∀ (l1 : List BT) (x y : BT) (l2 : List BT), l1.length = k →
      (l1 ++ x :: y :: l2).length = s.numSlots →
      fill s (l1 ++ x :: y :: l2) = fill s' (l1 ++ BT.node x y :: l2) := by
  induction hcol with
  | here =>
    intro l1 x y l2 h1 h2
    have he1 : l1 = [] := List.length_eq_zero.mp h1
    subst he1
    simp only [List.nil_append, List.length_cons, Shape.numSlots] at h2
    have he2 : l2 = [] := List.length_eq_zero.mp (by
      show l2.length = 0
      simpa [Shape.numSlots] using h2)
    subst he2
    rfl
  | @left a k a' b hc ih =>
    intro l1 x y l2 h1 h2
    have hkb : k + 2 ≤ a.numSlots := collapse_k_bound hc
    have hns : a.numSlots = a'.numSlots + 1 := collapse_numSlots hc
    simp only [List.length_append, List.length_cons, Shape.numSlots] at h2
    have hl2len : a.numSlots - k - 2 ≤ l2.length := by omega
    have hsplit2 := List.take_append_drop (a.numSlots - k - 2) l2
    have hlenA : (l1 ++ x :: y :: l2.take (a.numSlots - k - 2)).length = a.numSlots := by
      simp only [List.length_append, List.length_cons, List.length_take]
      omega
    have hlenA' : (l1 ++ BT.node x y :: l2.take (a.numSlots - k - 2)).length
        = a'.numSlots := by
      simp only [List.length_append, List.length_cons, List.length_take]
      omega
    have hdecomp : l1 ++ x :: y :: l2
        = (l1 ++ x :: y :: l2.take (a.numSlots - k - 2))
          ++ l2.drop (a.numSlots - k - 2) := by
      conv_lhs => rw [← hsplit2]
      simp
    have hdecomp' : l1 ++ BT.node x y :: l2
        = (l1 ++ BT.node x y :: l2.take (a.numSlots - k - 2))
          ++ l2.drop (a.numSlots - k - 2) := by
      conv_lhs => rw [← hsplit2]
      simp
    show BT.node (fill a ((l1 ++ x :: y :: l2).take a.numSlots))
        (fill b ((l1 ++ x :: y :: l2).drop a.numSlots))
      = BT.node (fill a' ((l1 ++ BT.node x y :: l2).take a'.numSlots))
        (fill b ((l1 ++ BT.node x y :: l2).drop a'.numSlots))
    rw [hdecomp, hdecomp', List.take_left' hlenA, List.drop_left' hlenA,
      List.take_left' hlenA', List.drop_left' hlenA',
      ih l1 x y (l2.take (a.numSlots - k - 2)) h1 hlenA]
  | @right a b k b' hc ih =>
    intro l1 x y l2 h1 h2
    have hkb : k + 2 ≤ b.numSlots := collapse_k_bound hc
    have hns : b.numSlots = b'.numSlots + 1 := collapse_numSlots hc
    simp only [List.length_append, List.length_cons, Shape.numSlots] at h2
    have hl1split := List.take_append_drop a.numSlots l1
    have hlenA : (l1.take a.numSlots).length = a.numSlots := by
      simp only [List.length_take]
      omega
    have hlenB : (l1.drop a.numSlots).length = k := by
      simp only [List.length_drop]
      omega
    have hdecomp : l1 ++ x :: y :: l2
        = l1.take a.numSlots ++ (l1.drop a.numSlots ++ x :: y :: l2) := by
      rw [← List.append_assoc, hl1split]
    have hdecomp' : l1 ++ BT.node x y :: l2
        = l1.take a.numSlots ++ (l1.drop a.numSlots ++ BT.node x y :: l2) := by
      rw [← List.append_assoc, hl1split]
    show BT.node (fill a ((l1 ++ x :: y :: l2).take a.numSlots))
        (fill b ((l1 ++ x :: y :: l2).drop a.numSlots))
      = BT.node (fill a ((l1 ++ BT.node x y :: l2).take a.numSlots))
        (fill b' ((l1 ++ BT.node x y :: l2).drop a.numSlots))
    rw [hdecomp, hdecomp', List.take_left' hlenA, List.drop_left' hlenA,
      List.take_left' hlenA, List.drop_left' hlenA,
      ih (l1.drop a.numSlots) x y l2 hlenB
        (by simp only [List.length_append, List.length_cons]; omega)]

/-! ## The exchange argument: a merge-loop result is optimal among assemblies -/

theorem count_two_second_index {α : Type} [DecidableEq α] :
    ∀ (l : List α) (x d : α) (k : Nat), 2 ≤ l.count x →
      ∃ j, j < l.length ∧ j ≠ k ∧ l.getD j d = x := by
  intro l
  induction l with
  | nil => intro x d k h; simp at h
  | cons a t ih =>
    intro x d k h
    by_cases hax : a = x
    · cases k with
      | zero =>
        have hcc : (a :: t).count x = t.count x + 1 := by
          rw [List.count_cons]
          simp [hax]
        have hmem : x ∈ t := List.count_pos_iff_mem.mp (by omega)
        obtain ⟨m, hm, hme⟩ := List.mem_iff_getElem.mp hmem
        refine ⟨m + 1, by simp; omega, by omega, ?_⟩
        show t.getD m d = x
        rw [List.getD_eq_getElem t d hm, hme]
      | succ n =>
        exact ⟨0, by simp, by omega, hax⟩
    · have hcc : (a :: t).count x = t.count x := by
        rw [List.count_cons]
        simp [hax]
      cases k with
      | zero =>
        obtain ⟨j, hj, _, hje⟩ := ih x d 1 (by omega)
        exact ⟨j + 1, by simp; omega, by omega, hje⟩
      | succ n =>
        obtain ⟨j, hj, hjn, hje⟩ := ih x d n (by omega)
        exact ⟨j + 1, by simp; omega, by omega, hje⟩

theorem two_idx_two_count {α : Type} [DecidableEq α] :
    ∀ (l : List α) (d : α) (j k : Nat), j < l.length → k < l.length →
      j ≠ k → l.getD j d = l.getD k d → 2 ≤ l.count (l.getD j d) := by
  intro l
  induction l with
  | nil => intro d j k hj; simp at hj
  | cons a t ih =>
    intro d j k hj hk hjk he
    have hle : ∀ y : α, t.count y ≤ (a :: t).count y := by
      intro y
      rw [List.count_cons]
      split <;> omega
    cases j with
    | zero =>
      cases k with
      | zero => omega
      | succ n =>
        have hn : n < t.length := by simp at hk; omega
        have hea : a = t.getD n d := he
        have hmem : a ∈ t := by
          rw [hea, List.getD_eq_getElem t d hn]
          exact List.getElem_mem hn
        have h1 : 0 < t.count a := List.count_pos_iff_mem.mpr hmem
        have hcc : (a :: t).count a = t.count a + 1 := List.count_cons_self a t
        show 2 ≤ (a :: t).count a
        omega
    | succ m =>
      cases k with
      | zero =>
        have hm : m < t.length := by simp at hj; omega
        have hea : t.getD m d = a := he
        have hmem : t.getD m d ∈ t := by
          rw [List.getD_eq_getElem t d hm]
          exact List.getElem_mem hm
        have h1 : 0 < t.count (t.getD m d) := List.count_pos_iff_mem.mpr hmem
        rw [hea] at h1
        show 2 ≤ (a :: t).count (t.getD m d)
        rw [hea, List.count_cons_self]
        omega
      | succ n =>
        have hm : m < t.length := by simp at hj; omega
        have hn : n < t.length := by simp at hk; omega
        have het : t.getD m d = t.getD n d := he
        have := ih d m n hm hn (by omega) het
        show 2 ≤ (a :: t).count (t.getD m d)
        have := hle (t.getD m d)
        omega

theorem getD_mem_erase_of_ne_idx {α : Type} [DecidableEq α] (l : List α) (d : α)
    (i k : Nat) (hi : i < l.length) (hk : k < l.length) (hik : i ≠ k) :
    l.getD i d ∈ (l : Multiset α).erase (l.getD k d) := by
  by_cases he : l.getD i d = l.getD k d
  · rw [he]
    have hc := two_idx_two_count l d i k hi hk hik he
    rw [he] at hc
    have hcc : 2 ≤ Multiset.count (l.getD k d) (l : Multiset α) := by
      rw [Multiset.coe_count]
      exact hc
    have hce := Multiset.count_erase_self (l.getD k d) (l : Multiset α)
    exact Multiset.one_le_count_iff_mem.mp (by omega)
  · refine (Multiset.mem_erase_of_ne he).mpr ?_
    refine Multiset.mem_coe.mpr ?_
    rw [List.getD_eq_getElem l d hi]
    exact List.getElem_mem hi

theorem map_weight_getD (l : List BT) (i : Nat) (hi : i < l.length) :
    (l.map BT.weight).getD i 0 = (l.getD i (BT.leaf "" 0)).weight := by
  rw [List.getD_eq_getElem _ 0 (by simpa using hi), List.getD_eq_getElem l _ hi]
  exact List.getElem_map BT.weight

theorem fill_swap_cost_le (sh : Shape) (l : List BT) (i k : Nat)
    (hl : l.length = sh.numSlots) (hi : i < l.length) (hk : k < l.length)
    (hd : sh.depths.getD i 0 ≤ sh.depths.getD k 0)
    (hw : (l.getD i (BT.leaf "" 0)).weight ≤ (l.getD k (BT.leaf "" 0)).weight) :
    (fill sh ((l.set i (l.getD k (BT.leaf "" 0))).set k (l.getD i (BT.leaf "" 0)))).cost
      ≤ (fill sh l).cost := by
  have hlen2 :
      ((l.set i (l.getD k (BT.leaf "" 0))).set k (l.getD i (BT.leaf "" 0))).length
        = l.length := by
    simp
  rw [BT.cost_fill sh _ (by rw [hlen2]; exact hl), BT.cost_fill sh l hl]
  have hperm := set_set_swap_perm (BT.leaf "" 0) l i k hi hk
  have hsum :
      (((l.set i (l.getD k (BT.leaf "" 0))).set k (l.getD i (BT.leaf "" 0))).map
        BT.cost).sum = (l.map BT.cost).sum :=
    (hperm.map BT.cost).sum_eq
  have hmap :
      ((l.set i (l.getD k (BT.leaf "" 0))).set k (l.getD i (BT.leaf "" 0))).map
          BT.weight
        = ((l.map BT.weight).set i ((l.map BT.weight).getD k 0)).set k
            ((l.map BT.weight).getD i 0) := by
    rw [List.map_set, List.map_set, map_weight_getD l i hi, map_weight_getD l k hk]
  have hdot :
      dotD sh.depths
          (((l.map BT.weight).set i ((l.map BT.weight).getD k 0)).set k
            ((l.map BT.weight).getD i 0))
        ≤ dotD sh.depths (l.map BT.weight) :=
    dotD_swap_le sh.depths (l.map BT.weight) i k (by simpa using hi)
      (by simpa using hk)
      (by rw [Shape.depths_length, List.length_map]; exact hl.symm) hd
      (by rw [map_weight_getD l i hi, map_weight_getD l k hk]; exact hw)
  rw [hmap, hsum]
  omega

theorem list_decomp_two {α : Type} (l : List α) (d : α) (k : Nat)
    (h : k + 2 ≤ l.length) :
    l = l.take k ++ l.getD k d :: l.getD (k + 1) d :: l.drop (k + 2) := by
  have h1 : l.drop k = l.get ⟨k, by omega⟩ :: l.drop (k + 1) :=
    List.drop_eq_getElem_cons (by omega)
  have h2 : l.drop (k + 1) = l.get ⟨k + 1, by omega⟩ :: l.drop (k + 2) :=
    List.drop_eq_getElem_cons (by omega)
  conv_lhs => rw [← List.take_append_drop k l]
  rw [h1, h2, List.getD_eq_getElem l d (show k < l.length by omega),
    List.getD_eq_getElem l d (show k + 1 < l.length by omega)]
  rfl

theorem exchange_step {S : Multiset BT} {T t1 t2 : BT}
    (hT : IsAssemblyOf S T) (h1 : t1 ∈ S) (h2 : t2 ∈ S.erase t1)
    (hmin1 : ∀ u ∈ S, t1.weight ≤ u.weight)
    (hmin2 : ∀ u ∈ S.erase t1, t2.weight ≤ u.weight) :
    ∃ T', IsAssemblyOf (BT.node t1 t2 ::ₘ (S.erase t1).erase t2) T'
      ∧ T'.cost ≤ T.cost := by
  obtain ⟨sh, l, hlen, hms, hfill⟩ := hT
  have hcard2 : 2 ≤ Multiset.card S := by
    have he1 := Multiset.card_erase_of_mem h1
    rw [Nat.pred_eq_sub_one] at he1
    have hpos : 0 < Multiset.card (S.erase t1) :=
      Multiset.card_pos_iff_exists_mem.mpr ⟨t2, h2⟩
    have hc1 : 0 < Multiset.card S :=
      Multiset.card_pos_iff_exists_mem.mpr ⟨t1, h1⟩
    omega
  have hlS : Multiset.card S = l.length := by rw [← hms]; rfl
  have hns2 : 2 ≤ sh.numSlots := by omega
  obtain ⟨k, sh', hcol, hdk, hdk1⟩ := collapse_exists sh hns2
  have hk2 : k + 2 ≤ sh.numSlots := collapse_k_bound hcol
  have hkl : k + 2 ≤ l.length := by omega
  have hdepk : sh.depths.getD k 0 = sh.maxD := by
    rw [show sh.depths.getD k 0 = (sh.depths.get? k).getD 0 from rfl,
      List.get?_eq_getElem?, hdk]
    rfl
  have hdepk1 : sh.depths.getD (k + 1) 0 = sh.maxD := by
    rw [show sh.depths.getD (k + 1) 0 = (sh.depths.get? (k + 1)).getD 0 from rfl,
      List.get?_eq_getElem?, hdk1]
    rfl
  have hdep_le : ∀ m, sh.depths.getD m 0 ≤ sh.maxD := by
    intro m
    by_cases hm : m < sh.depths.length
    · refine Shape.depths_le_maxD sh _ ?_
      rw [List.getD_eq_getElem _ _ hm]
      exact List.getElem_mem hm
    · rw [List.getD_eq_default _ _ (by omega)]
      omega
  have hgetD_mem_S : ∀ m, m < l.length → l.getD m (BT.leaf "" 0) ∈ S := by
    intro m hm
    rw [← hms]
    refine Multiset.mem_coe.mpr ?_
    rw [List.getD_eq_getElem _ _ hm]
    exact List.getElem_mem hm
  obtain ⟨i, hi, hie⟩ := List.mem_iff_getElem.mp
    (Multiset.mem_coe.mp (show t1 ∈ (l : Multiset BT) by rw [hms]; exact h1))
  have hieD : l.getD i (BT.leaf "" 0) = t1 := by
    rw [List.getD_eq_getElem _ _ hi, hie]
  obtain ⟨l1, hl1def⟩ : ∃ l1, l1
      = (l.set i (l.getD k (BT.leaf "" 0))).set k (l.getD i (BT.leaf "" 0)) :=
    ⟨_, rfl⟩
  have hl1len : l1.length = l.length := by rw [hl1def]; simp
  have hl1perm : l1.Perm l := by
    rw [hl1def]
    exact set_set_swap_perm (BT.leaf "" 0) l i k hi (by omega)
  have hl1ms : (l1 : Multiset BT) = S := by
    rw [Multiset.coe_eq_coe.mpr hl1perm]
    exact hms
  have hl1k : l1.getD k (BT.leaf "" 0) = t1 := by
    rw [hl1def, listGetD_set_self _ k _ _ (by simp; omega)]
    exact hieD
  have hcost1 : (fill sh l1).cost ≤ (fill sh l).cost := by
    rw [hl1def]
    exact fill_swap_cost_le sh l i k hlen hi (by omega)
      (by rw [hdepk]; exact hdep_le i)
      (by rw [hieD]; exact hmin1 _ (hgetD_mem_S k (by omega)))
  have hexj : ∃ j, j < l1.length ∧ j ≠ k ∧ l1.getD j (BT.leaf "" 0) = t2 := by
    by_cases htt : t2 = t1
    · have hc1 : 1 ≤ Multiset.count t1 (S.erase t1) :=
        Multiset.one_le_count_iff_mem.mpr (htt ▸ h2)
      have hc2 : 2 ≤ Multiset.count t1 S := by
        have := Multiset.count_erase_self t1 S
        omega
      have hcl : 2 ≤ l1.count t1 := by
        have hco := Multiset.coe_count t1 l1
        rw [hl1ms] at hco
        omega
      obtain ⟨j, hj, hjk, hje⟩ := count_two_second_index l1 t1 (BT.leaf "" 0) k hcl
      exact ⟨j, hj, hjk, by rw [hje, htt]⟩
    · have ht2S : t2 ∈ S := Multiset.mem_of_mem_erase h2
      obtain ⟨j, hj, hje⟩ := List.mem_iff_getElem.mp (Multiset.mem_coe.mp
        (show t2 ∈ (l1 : Multiset BT) by rw [hl1ms]; exact ht2S))
      have hjD : l1.getD j (BT.leaf "" 0) = t2 := by
        rw [List.getD_eq_getElem _ _ hj, hje]
      refine ⟨j, hj, ?_, hjD⟩
      intro hjkk
      rw [hjkk, hl1k] at hjD
      exact htt hjD.symm
  obtain ⟨j, hj, hjk, hje⟩ := hexj
  have hmem_k1 : l1.getD (k + 1) (BT.leaf "" 0) ∈ S.erase t1 := by
    have hh := getD_mem_erase_of_ne_idx l1 (BT.leaf "" 0) (k + 1) k
      (by omega) (by omega) (by omega)
    rwa [hl1ms, hl1k] at hh
  obtain ⟨l2, hl2def⟩ : ∃ l2, l2
      = (l1.set j (l1.getD (k + 1) (BT.leaf "" 0))).set (k + 1)
          (l1.getD j (BT.leaf "" 0)) :=
    ⟨_, rfl⟩
  have hl2len : l2.length = l.length := by rw [hl2def]; simp [hl1len]
  have hl2perm : l2.Perm l1 := by
    rw [hl2def]
    exact set_set_swap_perm (BT.leaf "" 0) l1 j (k + 1) hj (by omega)
  have hl2ms : (l2 : Multiset BT) = S := by
    rw [Multiset.coe_eq_coe.mpr hl2perm]
    exact hl1ms
  have hl2k1 : l2.getD (k + 1) (BT.leaf "" 0) = t2 := by
    rw [hl2def, listGetD_set_self _ (k + 1) _ _ (by simp; omega)]
    exact hje
  have hl2k : l2.getD k (BT.leaf "" 0) = t1 := by
    rw [hl2def, listGetD_set_ne _ (k + 1) k _ _ (by omega),
      listGetD_set_ne _ j k _ _ hjk]
    exact hl1k
  have hcost2 : (fill sh l2).cost ≤ (fill sh l1).cost := by
    rw [hl2def]
    exact fill_swap_cost_le sh l1 j (k + 1) (by rw [hl1len]; exact hlen) hj
      (by omega) (by rw [hdepk1]; exact hdep_le j)
      (by rw [hje]; exact hmin2 _ hmem_k1)
  have hdecomp : l2 = l2.take k ++ t1 :: t2 :: l2.drop (k + 2) := by
    rw [← hl2k, ← hl2k1]
    exact list_decomp_two l2 (BT.leaf "" 0) k (by omega)
  have hmsdecomp : S
      = (l2.take k : Multiset BT) + (t1 ::ₘ t2 ::ₘ (l2.drop (k + 2) : Multiset BT)) := by
    rw [← hl2ms]
    conv_lhs => rw [hdecomp]
    rfl
  have hS1 : S.erase t1
      = (l2.take k : Multiset BT) + (t2 ::ₘ (l2.drop (k + 2) : Multiset BT)) := by
    rw [hmsdecomp, Multiset.erase_add_right_pos _ (Multiset.mem_cons_self t1 _),
      Multiset.erase_cons_head]
  have hS2 : (S.erase t1).erase t2
      = (l2.take k : Multiset BT) + (l2.drop (k + 2) : Multiset BT) := by
    rw [hS1, Multiset.erase_add_right_pos _ (Multiset.mem_cons_self t2 _),
      Multiset.erase_cons_head]
  have htake_len : (l2.take k).length = k := List.length_take_of_le (by omega)
  have hlen3 : (l2.take k ++ BT.node t1 t2 :: l2.drop (k + 2)).length
      = sh'.numSlots := by
    have hns := collapse_numSlots hcol
    simp only [List.length_append, List.length_cons, List.length_drop, htake_len]
    omega
  refine ⟨fill sh' (l2.take k ++ BT.node t1 t2 :: l2.drop (k + 2)),
    ⟨sh', l2.take k ++ BT.node t1 t2 :: l2.drop (k + 2), hlen3, ?_, rfl⟩, ?_⟩
  · show (l2.take k : Multiset BT) + (BT.node t1 t2 ::ₘ (l2.drop (k + 2) : Multiset BT))
      = BT.node t1 t2 ::ₘ (S.erase t1).erase t2
    rw [hS2, Multiset.add_cons]
  · have hfc : fill sh l2 = fill sh' (l2.take k ++ BT.node t1 t2 :: l2.drop (k + 2)) := by
      have hstep := fill_collapse hcol (l2.take k) t1 t2 (l2.drop (k + 2)) htake_len
        (by rw [← hdecomp, hl2len]; exact hlen)
      rw [← hdecomp] at hstep
      exact hstep
    rw [← hfc, ← hfill]
    exact hcost2.trans hcost1

theorem assembly_singleton {t T : BT} (h : IsAssemblyOf {t} T) : T = t := by
  obtain ⟨sh, l, hlen, hms, hfill⟩ := h
  have hcard : l.length = 1 := by
    have hc : Multiset.card (l : Multiset BT) = Multiset.card ({t} : Multiset BT) := by
      rw [hms]
    simpa using hc
  obtain ⟨x, hx⟩ := List.length_eq_one.mp hcard
  subst hx
  have hxt : x = t := by
    have h2 := hms
    rw [show (([x] : List BT) : Multiset BT) = {x} from rfl] at h2
    exact Multiset.singleton_inj.mp h2
  cases sh with
  | slot =>
    rw [← hfill, hxt]
    rfl
  | nodeS a b =>
    exfalso
    have hpa := Shape.numSlots_pos a
    have hpb := Shape.numSlots_pos b
    simp [Shape.numSlots] at hlen
    omega

theorem huffSteps_optimal {S : Multiset BT} {R : BT} (h : HuffSteps S R) :
    ∀ T : BT, IsAssemblyOf S T → R.cost ≤ T.cost := by
  induction h with
  | single t =>
    intro T hT
    rw [assembly_singleton hT]
  | step hm ht hmn1 hmn2 hrec ih =>
    intro T hT
    obtain ⟨T', hT', hle⟩ := exchange_step hT hm ht hmn1 hmn2
    exact (ih T' hT').trans hle

theorem assembly_of_leaves : ∀ T : BT,
    IsAssemblyOf (Multiset.map (fun p => BT.leaf p.1 p.2) T.leavesM) T := by
  intro T
  induction T with
  | leaf s w => exact ⟨.slot, [BT.leaf s w], rfl, rfl, rfl⟩
  | node lt rt ihl ihr =>
    obtain ⟨sha, la, hla, hmsa, hfa⟩ := ihl
    obtain ⟨shb, lb, hlb, hmsb, hfb⟩ := ihr
    refine ⟨.nodeS sha shb, la ++ lb, ?_, ?_, ?_⟩
    · simp [Shape.numSlots, hla, hlb]
    · rw [show ((la ++ lb : List BT) : Multiset BT)
        = (la : Multiset BT) + (lb : Multiset BT) from rfl, hmsa, hmsb]
      rw [show (BT.node lt rt).leavesM = lt.leavesM + rt.leavesM from rfl,
        Multiset.map_add]
    · show BT.node (fill sha ((la ++ lb).take sha.numSlots))
          (fill shb ((la ++ lb).drop sha.numSlots)) = BT.node lt rt
      rw [List.take_left' (by rw [hla]), List.drop_left' (by rw [hla]), hfa, hfb]

theorem huffSteps_min_cost {S0 : Multiset (String × Nat)} {R : BT}
    (h : HuffSteps (Multiset.map (fun p => BT.leaf p.1 p.2) S0) R) :
    ∀ T : BT, T.leavesM = S0 → R.cost ≤ T.cost := by
  intro T hT
  refine huffSteps_optimal h T ?_
  rw [← hT]
  exact assembly_of_leaves T

/-! ## From the embedded trees to the abstract trees -/

theorem toBT_weight : ∀ {t : Node}, t.wellFormedB = true →
    (toBT t).weight = t.frequency := by
  intro t
  induction t with
  | nil => intro h; simp [Node.wellFormedB] at h
  | mk v f l r ihl ihr =>
    intro h
    cases l with
    | nil =>
      cases r with
      | nil => rfl
      | mk v2 f2 l2 r2 => simp [Node.wellFormedB, Node.isMkB] at h
    | mk v1 f1 l1 r1 =>
      cases r with
      | nil => simp [Node.wellFormedB, Node.isMkB] at h
      | mk v2 f2 l2 r2 =>
        simp only [Node.wellFormedB, Node.isMkB, Node.frequency, Bool.and_eq_true,
          Bool.true_and, decide_eq_true_eq] at h
        obtain ⟨⟨hf, hwl⟩, hwr⟩ := h
        show (toBT (Node.mk v1 f1 l1 r1)).weight
          + (toBT (Node.mk v2 f2 l2 r2)).weight = f
        rw [ihl hwl, ihr hwr]
        show f1 + f2 = f
        omega

theorem toBT_leafPairs : ∀ {t : Node}, t.wellFormedB = true →
    (toBT t).leavesM = (t.leafPairs : Multiset (String × Nat)) := by
  intro t
  induction t with
  | nil => intro h; simp [Node.wellFormedB] at h
  | mk v f l r ihl ihr =>
    intro h
    cases l with
    | nil =>
      cases r with
      | nil => rfl
      | mk v2 f2 l2 r2 => simp [Node.wellFormedB, Node.isMkB] at h
    | mk v1 f1 l1 r1 =>
      cases r with
      | nil => simp [Node.wellFormedB, Node.isMkB] at h
      | mk v2 f2 l2 r2 =>
        simp only [Node.wellFormedB, Node.isMkB, Node.frequency, Bool.and_eq_true,
          Bool.true_and, decide_eq_true_eq] at h
        obtain ⟨⟨hf, hwl⟩, hwr⟩ := h
        show (toBT (Node.mk v1 f1 l1 r1)).leavesM
          + (toBT (Node.mk v2 f2 l2 r2)).leavesM = _
        rw [ihl hwl, ihr hwr,
          show (Node.mk v f (Node.mk v1 f1 l1 r1) (Node.mk v2 f2 l2 r2)).leafPairs
            = (Node.mk v1 f1 l1 r1).leafPairs ++ (Node.mk v2 f2 l2 r2).leafPairs
            from by simp [Node.leafPairs]]
        rfl

/-- The cost of the table emitted below a node, against any frequency
function that agrees with the leaf weights: the weighted external path
length plus the cost of the accumulated prefix. -/
theorem tableCost_codesOf (freq : String → Nat) :
    ∀ (t : Node), t.wellFormedB = true →
      (∀ p ∈ t.leafPairs, freq p.1 = p.2) →
      ∀ code : String,
        tableCost freq (codesOf t code)
          = (toBT t).cost + code.length * (toBT t).weight := by
  intro t
  induction t with
  | nil => intro h; simp [Node.wellFormedB] at h
  | mk v f l r ihl ihr =>
    intro h hfr code
    cases l with
    | nil =>
      cases r with
      | nil =>
        have hfv : freq v = f := hfr (v, f) (by simp [Node.leafPairs])
        rw [show tableCost freq (codesOf (Node.mk v f .nil .nil) code)
            = freq v * code.data.length from by simp [tableCost, codesOf]]
        rw [hfv, show (toBT (Node.mk v f .nil .nil)).cost = 0 from rfl,
          show (toBT (Node.mk v f .nil .nil)).weight = f from rfl,
          show code.length = code.data.length from rfl]
        ring
      | mk v2 f2 l2 r2 => simp [Node.wellFormedB, Node.isMkB] at h
    | mk v1 f1 l1 r1 =>
      cases r with
      | nil => simp [Node.wellFormedB, Node.isMkB] at h
      | mk v2 f2 l2 r2 =>
        simp only [Node.wellFormedB, Node.isMkB, Node.frequency, Bool.and_eq_true,
          Bool.true_and, decide_eq_true_eq] at h
        obtain ⟨⟨hf, hwl⟩, hwr⟩ := h
        have hpairs : (Node.mk v f (Node.mk v1 f1 l1 r1)
            (Node.mk v2 f2 l2 r2)).leafPairs
            = (Node.mk v1 f1 l1 r1).leafPairs ++ (Node.mk v2 f2 l2 r2).leafPairs := by
          simp [Node.leafPairs]
        have hfrl : ∀ p ∈ (Node.mk v1 f1 l1 r1).leafPairs, freq p.1 = p.2 := by
          intro p hp
          exact hfr p (by rw [hpairs]; exact List.mem_append.mpr (Or.inl hp))
        have hfrr : ∀ p ∈ (Node.mk v2 f2 l2 r2).leafPairs, freq p.1 = p.2 := by
          intro p hp
          exact hfr p (by rw [hpairs]; exact List.mem_append.mpr (Or.inr hp))
        rw [codesOf_node v f _ _ code (by simp),
          show ∀ (u w : List (String × String)),
            tableCost freq (u ++ w) = tableCost freq u + tableCost freq w
            from by intro u w; simp [tableCost],
          ihl hwl hfrl (code ++ "0"), ihr hwr hfrr (code ++ "1"),
          String.length_append, String.length_append,
          show ("0" : String).length = 1 from rfl,
          show ("1" : String).length = 1 from rfl]
        show (toBT (Node.mk v1 f1 l1 r1)).cost
            + (code.length + 1) * (toBT (Node.mk v1 f1 l1 r1)).weight
            + ((toBT (Node.mk v2 f2 l2 r2)).cost
              + (code.length + 1) * (toBT (Node.mk v2 f2 l2 r2)).weight)
          = (toBT (Node.mk v1 f1 l1 r1)).cost + (toBT (Node.mk v2 f2 l2 r2)).cost
              + (toBT (Node.mk v1 f1 l1 r1)).weight + (toBT (Node.mk v2 f2 l2 r2)).weight
            + code.length * ((toBT (Node.mk v1 f1 l1 r1)).weight
              + (toBT (Node.mk v2 f2 l2 r2)).weight)
        ring

/-- The leaf multiset is invariant under the abstract merge loop. -/
theorem huffSteps_leavesM {S : Multiset BT} {R : BT} (h : HuffSteps S R) :
    R.leavesM = (S.map BT.leavesM).sum := by
  induction h with
  | single t => simp
  | @step S' t1 t2 R' hm ht hmn1 hmn2 hrec ih =>
    rw [ih, Multiset.map_cons, Multiset.sum_cons]
    conv_rhs => rw [← Multiset.cons_erase hm]
    rw [Multiset.map_cons, Multiset.sum_cons]
    conv_rhs => rw [← Multiset.cons_erase ht]
    rw [Multiset.map_cons, Multiset.sum_cons,
      show (BT.node t1 t2).leavesM = t1.leavesM + t2.leavesM from rfl, add_assoc]

/-- The merge loop of `BuildHuffmanTree`, viewed abstractly: starting
from a heap-ordered queue of well-formed trees it performs exactly a run
of `HuffSteps` on the multiset of the queue entries. -/
theorem buildLoop_huffSteps :
    ∀ (fuel : Nat) (pq : PriorityQueue), 0 < pq.size → pq.size ≤ fuel + 1 →
      SubHeap pq pq.size 0 →
      (∀ t ∈ pq.toList, t.wellFormedB = true) →
      ∃ root : Node,
        (buildLoop fuel pq).toList = [root] ∧
        HuffSteps ((pq.toList.map toBT : List BT) : Multiset BT) (toBT root) := by
  intro fuel
  induction fuel with
  | zero =>
    intro pq h0 hf hh hwf
    have hps : pq.size = 1 := by omega
    have hs : pq.toList.length = 1 := hps
    obtain ⟨x, hx⟩ := List.length_eq_one.mp hs
    refine ⟨x, hx, ?_⟩
    rw [hx]
    exact HuffSteps.single (toBT x)
  | succ fuel ih =>
    intro pq h0 hf hh hwf
    by_cases h1 : 1 < pq.size
    · have e : buildLoop (fuel + 1) pq
          = buildLoop fuel
              (heapPush (heapPop (heapPop pq).2).2
                (Node.mk "" ((heapPop pq).1.frequency + (heapPop (heapPop pq).2).1.frequency)
                  (heapPop pq).1 (heapPop (heapPop pq).2).1)) := by
        simp only [buildLoop, if_pos h1]
      have hp1 : pq.toList.Perm ((heapPop pq).1 :: (heapPop pq).2.toList) :=
        heapPop_perm pq h0
      have hsz1 : (heapPop pq).2.size = pq.size - 1 := heapPop_size pq
      have h02 : 0 < (heapPop pq).2.size := by omega
      have hp2 : (heapPop pq).2.toList.Perm
          ((heapPop (heapPop pq).2).1 :: (heapPop (heapPop pq).2).2.toList) :=
        heapPop_perm _ h02
      have hsz2 : (heapPop (heapPop pq).2).2.size = pq.size - 2 := by
        rw [heapPop_size]; omega
      have hall : pq.toList.Perm
          ((heapPop pq).1 :: (heapPop (heapPop pq).2).1
            :: (heapPop (heapPop pq).2).2.toList) :=
        hp1.trans (List.Perm.cons _ hp2)
      have hm1 : (heapPop pq).1 ∈ pq.toList := hall.mem_iff.mpr (by simp)
      have hm2 : (heapPop (heapPop pq).2).1 ∈ pq.toList := hall.mem_iff.mpr (by simp)
      have hsub : ∀ t ∈ (heapPop (heapPop pq).2).2.toList, t ∈ pq.toList := by
        intro t ht
        exact hall.mem_iff.mpr (by simp [ht])
      have wf1 : (heapPop pq).1.wellFormedB = true := hwf _ hm1
      have wf2 : (heapPop (heapPop pq).2).1.wellFormedB = true := hwf _ hm2
      obtain ⟨v1, f1, l1, r1, e1⟩ : ∃ v f l r, (heapPop pq).1 = Node.mk v f l r := by
        cases hx : (heapPop pq).1 with
        | nil => rw [hx] at wf1; simp [Node.wellFormedB] at wf1
        | mk v f l r => exact ⟨v, f, l, r, rfl⟩
      obtain ⟨v2, f2, l2, r2, e2⟩ : ∃ v f l r,
          (heapPop (heapPop pq).2).1 = Node.mk v f l r := by
        cases hx : (heapPop (heapPop pq).2).1 with
        | nil => rw [hx] at wf2; simp [Node.wellFormedB] at wf2
        | mk v f l r => exact ⟨v, f, l, r, rfl⟩
      have wfnew : (Node.mk ""
          ((heapPop pq).1.frequency + (heapPop (heapPop pq).2).1.frequency)
          (heapPop pq).1 (heapPop (heapPop pq).2).1).wellFormedB = true := by
        rw [e1, e2]
        rw [e1] at wf1
        rw [e2] at wf2
        simp [Node.wellFormedB, Node.isMkB, Node.frequency, wf1, wf2]
      have hq'perm : (heapPush (heapPop (heapPop pq).2).2
          (Node.mk "" ((heapPop pq).1.frequency + (heapPop (heapPop pq).2).1.frequency)
            (heapPop pq).1 (heapPop (heapPop pq).2).1)).toList.Perm
          ((Node.mk "" ((heapPop pq).1.frequency + (heapPop (heapPop pq).2).1.frequency)
            (heapPop pq).1 (heapPop (heapPop pq).2).1) :: (heapPop (heapPop pq).2).2.toList) :=
        heapPush_perm _ _
      have hq'size : (heapPush (heapPop (heapPop pq).2).2
          (Node.mk "" ((heapPop pq).1.frequency + (heapPop (heapPop pq).2).1.frequency)
            (heapPop pq).1 (heapPop (heapPop pq).2).1)).size = pq.size - 1 := by
        rw [heapPush_size, hsz2]; omega
      have hwf' : ∀ t ∈ (heapPush (heapPop (heapPop pq).2).2
          (Node.mk "" ((heapPop pq).1.frequency + (heapPop (heapPop pq).2).1.frequency)
            (heapPop pq).1 (heapPop (heapPop pq).2).1)).toList, t.wellFormedB = true := by
        intro t ht
        rcases List.mem_cons.mp (hq'perm.mem_iff.mp ht) with hcase | hcase
        · rw [hcase]; exact wfnew
        · exact hwf t (hsub t hcase)
      have hh1 : SubHeap (heapPop pq).2 (heapPop pq).2.size 0 :=
        heapPop_subheap pq hh h0
      have hh2 : SubHeap (heapPop (heapPop pq).2).2 (heapPop (heapPop pq).2).2.size 0 :=
        heapPop_subheap _ hh1 h02
      have hh' : SubHeap (heapPush (heapPop (heapPop pq).2).2
          (Node.mk "" ((heapPop pq).1.frequency + (heapPop (heapPop pq).2).1.frequency)
            (heapPop pq).1 (heapPop (heapPop pq).2).1))
          (heapPush (heapPop (heapPop pq).2).2
          (Node.mk "" ((heapPop pq).1.frequency + (heapPop (heapPop pq).2).1.frequency)
            (heapPop pq).1 (heapPop (heapPop pq).2).1)).size 0 :=
        heapPush_subheap _ _ hh2
      have hmin1 : ∀ u ∈ pq.toList, (heapPop pq).1.frequency ≤ u.frequency :=
        heapPop_min pq hh h0
      have hmin2 : ∀ u ∈ (heapPop pq).2.toList,
          (heapPop (heapPop pq).2).1.frequency ≤ u.frequency :=
        heapPop_min _ hh1 h02
      obtain ⟨root, hroot, hsteps⟩ := ih _ (by omega) (by omega) hh' hwf'
      refine ⟨root, by rw [e]; exact hroot, ?_⟩
      have hS : ((pq.toList.map toBT : List BT) : Multiset BT)
          = toBT (heapPop pq).1 ::ₘ (((heapPop pq).2.toList.map toBT : List BT) : Multiset BT) :=
        Multiset.coe_eq_coe.mpr (hp1.map toBT)
      have hS2 : (((heapPop pq).2.toList.map toBT : List BT) : Multiset BT)
          = toBT (heapPop (heapPop pq).2).1
            ::ₘ (((heapPop (heapPop pq).2).2.toList.map toBT : List BT) : Multiset BT) :=
        Multiset.coe_eq_coe.mpr (hp2.map toBT)
      have herase1 : (((pq.toList.map toBT : List BT) : Multiset BT)).erase
            (toBT (heapPop pq).1)
          = (((heapPop pq).2.toList.map toBT : List BT) : Multiset BT) := by
        rw [hS, Multiset.erase_cons_head]
      have herase2 : ((((heapPop pq).2.toList.map toBT : List BT) : Multiset BT)).erase
            (toBT (heapPop (heapPop pq).2).1)
          = (((heapPop (heapPop pq).2).2.toList.map toBT : List BT) : Multiset BT) := by
        rw [hS2, Multiset.erase_cons_head]
      have hmem1 : toBT (heapPop pq).1 ∈ ((pq.toList.map toBT : List BT) : Multiset BT) := by
        rw [hS]
        exact Multiset.mem_cons_self _ _
      have hmem2 : toBT (heapPop (heapPop pq).2).1
          ∈ (((pq.toList.map toBT : List BT) : Multiset BT)).erase (toBT (heapPop pq).1) := by
        rw [herase1, hS2]
        exact Multiset.mem_cons_self _ _
      have hmin1' : ∀ u ∈ ((pq.toList.map toBT : List BT) : Multiset BT),
          (toBT (heapPop pq).1).weight ≤ u.weight := by
        intro u hu
        obtain ⟨x, hx, hxe⟩ := List.mem_map.mp (Multiset.mem_coe.mp hu)
        rw [← hxe, toBT_weight (hwf x hx), toBT_weight wf1]
        exact hmin1 x hx
      have hmin2' : ∀ u ∈ (((pq.toList.map toBT : List BT) : Multiset BT)).erase
            (toBT (heapPop pq).1),
          (toBT (heapPop (heapPop pq).2).1).weight ≤ u.weight := by
        intro u hu
        rw [herase1] at hu
        obtain ⟨x, hx, hxe⟩ := List.mem_map.mp (Multiset.mem_coe.mp hu)
        rw [← hxe, toBT_weight (hwf x (hp1.mem_iff.mpr (by simp [hx]))),
          toBT_weight wf2]
        exact hmin2 x hx
      refine HuffSteps.step hmem1 hmem2 hmin1' hmin2' ?_
      rw [herase1, herase2]
      have htoBTnew : toBT (Node.mk ""
          ((heapPop pq).1.frequency + (heapPop (heapPop pq).2).1.frequency)
          (heapPop pq).1 (heapPop (heapPop pq).2).1)
          = BT.node (toBT (heapPop pq).1) (toBT (heapPop (heapPop pq).2).1) := by
        rw [e1, e2]
        rfl
      rw [← htoBTnew]
      have hq'ms : ((((heapPush (heapPop (heapPop pq).2).2
          (Node.mk "" ((heapPop pq).1.frequency + (heapPop (heapPop pq).2).1.frequency)
            (heapPop pq).1 (heapPop (heapPop pq).2).1)).toList.map toBT : List BT)) : Multiset BT)
          = toBT (Node.mk ""
              ((heapPop pq).1.frequency + (heapPop (heapPop pq).2).1.frequency)
              (heapPop pq).1 (heapPop (heapPop pq).2).1)
            ::ₘ (((heapPop (heapPop pq).2).2.toList.map toBT : List BT) : Multiset BT) :=
        Multiset.coe_eq_coe.mpr (hq'perm.map toBT)
      rw [← hq'ms]
      exact hsteps
    · have hps : pq.size = 1 := by omega
      have hs : pq.toList.length = 1 := hps
      obtain ⟨x, hx⟩ := List.length_eq_one.mp hs
      have e : buildLoop (fuel + 1) pq = pq := by
        simp only [buildLoop, if_neg h1]
      refine ⟨x, by rw [e]; exact hx, ?_⟩
      rw [hx]
      exact HuffSteps.single (toBT x)

/-- The whole build phase on an initialized heap is a `HuffSteps` run
from the leaf multiset of the enumeration. -/
theorem buildHuffmanTree_huffSteps (enum : List (String × Nat)) (h0 : enum ≠ []) :
    ∃ root : Node,
      BuildHuffmanTree (InitializeHeap enum) = some root ∧
      HuffSteps
        (Multiset.map (fun p => BT.leaf p.1 p.2) (enum : Multiset (String × Nat)))
        (toBT root) := by
  have hsz : (InitializeHeap enum).size = enum.length := InitializeHeap_size enum
  have hpos : 0 < (InitializeHeap enum).size := by
    rw [hsz]
    exact List.length_pos.mpr h0
  obtain ⟨root, h1, h2⟩ := buildLoop_huffSteps (InitializeHeap enum).size
    (InitializeHeap enum) hpos (Nat.le_succ _) (heapInit_subheap _)
    (initializeHeap_wf enum)
  refine ⟨root, ?_, ?_⟩
  · show (buildLoop (InitializeHeap enum).size (InitializeHeap enum)).toList[0]? = some root
    rw [h1]
    rfl
  · have hperm := (InitializeHeap_perm enum).map toBT
    have hms : (((InitializeHeap enum).toList.map toBT : List BT) : Multiset BT)
        = Multiset.map (fun p => BT.leaf p.1 p.2) (enum : Multiset (String × Nat)) := by
      rw [Multiset.coe_eq_coe.mpr hperm]
      rw [show ((enum.map (fun p => Node.mk p.1 p.2 .nil .nil)).map toBT : List BT)
          = enum.map (fun p => BT.leaf p.1 p.2) from by rw [List.map_map]; rfl]
      rfl
    rw [← hms]
    exact h2

/-! ## Every binary prefix code embeds into a weighted binary tree -/

theorem sum_tail_lengths {α : Type} :
    ∀ (l : List (α × List Char)), (∀ e ∈ l, e.2 ≠ []) →
      (l.map (fun e => e.2.tail.length)).sum + l.length
        = (l.map (fun e => e.2.length)).sum := by
  intro l
  induction l with
  | nil => intro _; rfl
  | cons a t ih =>
    intro h
    have ha := h a (by simp)
    have ht : ∀ e ∈ t, e.2 ≠ [] := fun e he => h e (by simp [he])
    simp only [List.map_cons, List.sum_cons, List.length_cons]
    rw [← ih ht]
    cases hx : a.2 with
    | nil => exact absurd hx ha
    | cons c cs =>
      simp only [List.tail_cons, List.length_cons]
      omega

theorem sum_w_tail {α : Type} :
    ∀ (l : List ((α × Nat) × List Char)), (∀ e ∈ l, e.2 ≠ []) →
      (l.map (fun e => e.1.2 * e.2.tail.length)).sum + (l.map (fun e => e.1.2)).sum
        = (l.map (fun e => e.1.2 * e.2.length)).sum := by
  intro l
  induction l with
  | nil => intro _; rfl
  | cons a t ih =>
    intro h
    have ha := h a (by simp)
    have ht : ∀ e ∈ t, e.2 ≠ [] := fun e he => h e (by simp [he])
    simp only [List.map_cons, List.sum_cons]
    rw [← ih ht]
    cases hx : a.2 with
    | nil => exact absurd hx ha
    | cons c cs =>
      simp only [List.tail_cons, List.length_cons]
      rw [Nat.mul_succ]
      omega

theorem BT.weight_leavesM : ∀ T : BT,
    T.weight = (Multiset.map Prod.snd T.leavesM).sum := by
  intro T
  induction T with
  | leaf s w => simp [BT.leavesM, BT.weight]
  | node l r ihl ihr => simp [BT.leavesM, BT.weight, Multiset.map_add, ihl, ihr]

set_option maxHeartbeats 1600000 in
/-- Every prefix-free set of binary code words (given with symbol/weight
data) embeds into a binary tree whose leaves are those symbols and whose
weighted path length is at most the weighted total code length.  `N`
bounds the total code length, giving the induction its measure. -/
theorem prefix_code_tree :
    ∀ (N : Nat) (entries : List ((String × Nat) × List Char)),
      (entries.map (fun e => e.2.length)).sum ≤ N →
      entries ≠ [] →
      (∀ e ∈ entries, ∀ ch ∈ e.2, ch = '0' ∨ ch = '1') →
      entries.Pairwise (fun e f => ¬ e.2 <+: f.2 ∧ ¬ f.2 <+: e.2) →
      ∃ T : BT,
        T.leavesM = ((entries.map Prod.fst : List (String × Nat)) : Multiset (String × Nat))
        ∧ T.cost ≤ (entries.map (fun e => e.1.2 * e.2.length)).sum := by
  intro N
  induction N with
  | zero =>
    intro entries hlen hne hch hpw
    cases entries with
    | nil => exact absurd rfl hne
    | cons e1 tl =>
      cases tl with
      | nil => exact ⟨BT.leaf e1.1.1 e1.1.2, rfl, Nat.zero_le _⟩
      | cons e2 rest =>
        exfalso
        simp only [List.map_cons, List.sum_cons] at hlen
        have h1 : e1.2.length = 0 := by omega
        have h1e : e1.2 = [] := List.length_eq_zero.mp h1
        have hrel := (List.pairwise_cons.mp hpw).1 e2 (by simp)
        exact hrel.1 (by rw [h1e]; exact List.nil_prefix)
  | succ N ih =>
    intro entries hlen hne hch hpw
    cases entries with
    | nil => exact absurd rfl hne
    | cons e1 tl =>
      cases tl with
      | nil => exact ⟨BT.leaf e1.1.1 e1.1.2, rfl, Nat.zero_le _⟩
      | cons e2 rest =>
        have hnonempty : ∀ e ∈ e1 :: e2 :: rest, e.2 ≠ [] := by
          intro e hme hnil
          have hpw1 := (List.pairwise_cons.mp hpw).1
          rcases List.mem_cons.mp hme with he1 | hrest2
          · have hr := hpw1 e2 (by simp)
            subst he1
            exact hr.1 (by rw [hnil]; exact List.nil_prefix)
          · have hr := hpw1 e hrest2
            exact hr.2 (by rw [hnil]; exact List.nil_prefix)
        have hsplit := List.filter_append_perm
          (fun e => decide (e.2.head? = some '0')) (e1 :: e2 :: rest)
        obtain ⟨P0, hP0⟩ : ∃ P0, P0 = (e1 :: e2 :: rest).filter
            (fun e => decide (e.2.head? = some '0')) := ⟨_, rfl⟩
        obtain ⟨P1, hP1⟩ : ∃ P1, P1 = (e1 :: e2 :: rest).filter
            (fun e => !(decide (e.2.head? = some '0'))) := ⟨_, rfl⟩
        rw [← hP0, ← hP1] at hsplit
        have hP0sub : ∀ e ∈ P0, e ∈ e1 :: e2 :: rest := by
          intro e he
          rw [hP0] at he
          exact (List.mem_filter.mp he).1
        have hP1sub : ∀ e ∈ P1, e ∈ e1 :: e2 :: rest := by
          intro e he
          rw [hP1] at he
          exact (List.mem_filter.mp he).1
        have hP0head : ∀ e ∈ P0, ∃ t, e.2 = '0' :: t := by
          intro e he
          have hm := List.mem_filter.mp (hP0 ▸ he)
          have hnn := hnonempty e hm.1
          have hb : decide (e.2.head? = some '0') = true := hm.2
          have hdec : e.2.head? = some '0' := of_decide_eq_true hb
          cases hx : e.2 with
          | nil => exact absurd hx hnn
          | cons c cs =>
            rw [hx] at hdec
            simp at hdec
            exact ⟨cs, by rw [hdec]⟩
        have hP1head : ∀ e ∈ P1, ∃ t, e.2 = '1' :: t := by
          intro e he
          have hm := List.mem_filter.mp (hP1 ▸ he)
          have hnn := hnonempty e hm.1
          have hb : (!(decide (e.2.head? = some '0'))) = true := hm.2
          have hdec : ¬ (e.2.head? = some '0') := by
            cases hdb : decide (e.2.head? = some '0') with
            | false => exact of_decide_eq_false hdb
            | true => rw [hdb] at hb; exact absurd hb (by decide)
          cases hx : e.2 with
          | nil => exact absurd hx hnn
          | cons c cs =>
            rcases hch e hm.1 c (by rw [hx]; simp) with h0 | h1'
            · exact absurd (by rw [hx, h0]; rfl) hdec
            · exact ⟨cs, by rw [h1']⟩
        obtain ⟨Q0, hQ0⟩ : ∃ Q0, Q0 = P0.map (fun e => (e.1, e.2.tail)) := ⟨_, rfl⟩
        obtain ⟨Q1, hQ1⟩ : ∃ Q1, Q1 = P1.map (fun e => (e.1, e.2.tail)) := ⟨_, rfl⟩
        have hQ0len : Q0.map (fun e => e.2.length)
            = P0.map (fun e => e.2.tail.length) := by
          rw [hQ0, List.map_map]
          rfl
        have hQ1len : Q1.map (fun e => e.2.length)
            = P1.map (fun e => e.2.tail.length) := by
          rw [hQ1, List.map_map]
          rfl
        have hQ0fst : Q0.map Prod.fst = P0.map Prod.fst := by
          rw [hQ0, List.map_map]
          rfl
        have hQ1fst : Q1.map Prod.fst = P1.map Prod.fst := by
          rw [hQ1, List.map_map]
          rfl
        have hQ0w : Q0.map (fun e => e.1.2 * e.2.length)
            = P0.map (fun e => e.1.2 * e.2.tail.length) := by
          rw [hQ0, List.map_map]
          rfl
        have hQ1w : Q1.map (fun e => e.1.2 * e.2.length)
            = P1.map (fun e => e.1.2 * e.2.tail.length) := by
          rw [hQ1, List.map_map]
          rfl
        have hP0ne_all : ∀ e ∈ P0, e.2 ≠ [] := fun e he => hnonempty e (hP0sub e he)
        have hP1ne_all : ∀ e ∈ P1, e.2 ≠ [] := fun e he => hnonempty e (hP1sub e he)
        have hsum0 := sum_tail_lengths P0 hP0ne_all
        have hsum1 := sum_tail_lengths P1 hP1ne_all
        have hsumsplit : (P0.map (fun e => e.2.length)).sum
            + (P1.map (fun e => e.2.length)).sum
            = ((e1 :: e2 :: rest).map (fun e => e.2.length)).sum := by
          rw [← List.sum_append, ← List.map_append]
          exact (hsplit.map _).sum_eq
        have hwsplit : (P0.map (fun e => e.1.2 * e.2.length)).sum
            + (P1.map (fun e => e.1.2 * e.2.length)).sum
            = ((e1 :: e2 :: rest).map (fun e => e.1.2 * e.2.length)).sum := by
          rw [← List.sum_append, ← List.map_append]
          exact (hsplit.map _).sum_eq
        have hQ0ch : ∀ e ∈ Q0, ∀ ch ∈ e.2, ch = '0' ∨ ch = '1' := by
          intro e he ch hc
          rw [hQ0] at he
          obtain ⟨a, ha, hae⟩ := List.mem_map.mp he
          have hc' : ch ∈ a.2.tail := by rw [← hae] at hc; exact hc
          exact hch a (hP0sub a ha) ch (List.mem_of_mem_tail hc')
        have hQ1ch : ∀ e ∈ Q1, ∀ ch ∈ e.2, ch = '0' ∨ ch = '1' := by
          intro e he ch hc
          rw [hQ1] at he
          obtain ⟨a, ha, hae⟩ := List.mem_map.mp he
          have hc' : ch ∈ a.2.tail := by rw [← hae] at hc; exact hc
          exact hch a (hP1sub a ha) ch (List.mem_of_mem_tail hc')
        have hQ0pw : Q0.Pairwise (fun e f => ¬ e.2 <+: f.2 ∧ ¬ f.2 <+: e.2) := by
          rw [hQ0, List.pairwise_map]
          refine List.Pairwise.imp_of_mem ?_ (by rw [hP0]; exact hpw.filter _)
          intro a b ha hb hab
          obtain ⟨ta, hta⟩ := hP0head a ha
          obtain ⟨tb, htb⟩ := hP0head b hb
          constructor
          · intro hcon
            have hcon' : a.2.tail <+: b.2.tail := hcon
            rw [hta, htb] at hcon'
            simp only [List.tail_cons] at hcon'
            exact hab.1 (by rw [hta, htb]; exact List.cons_prefix_cons.mpr ⟨rfl, hcon'⟩)
          · intro hcon
            have hcon' : b.2.tail <+: a.2.tail := hcon
            rw [hta, htb] at hcon'
            simp only [List.tail_cons] at hcon'
            exact hab.2 (by rw [hta, htb]; exact List.cons_prefix_cons.mpr ⟨rfl, hcon'⟩)
        have hQ1pw : Q1.Pairwise (fun e f => ¬ e.2 <+: f.2 ∧ ¬ f.2 <+: e.2) := by
          rw [hQ1, List.pairwise_map]
          refine List.Pairwise.imp_of_mem ?_ (by rw [hP1]; exact hpw.filter _)
          intro a b ha hb hab
          obtain ⟨ta, hta⟩ := hP1head a ha
          obtain ⟨tb, htb⟩ := hP1head b hb
          constructor
          · intro hcon
            have hcon' : a.2.tail <+: b.2.tail := hcon
            rw [hta, htb] at hcon'
            simp only [List.tail_cons] at hcon'
            exact hab.1 (by rw [hta, htb]; exact List.cons_prefix_cons.mpr ⟨rfl, hcon'⟩)
          · intro hcon
            have hcon' : b.2.tail <+: a.2.tail := hcon
            rw [hta, htb] at hcon'
            simp only [List.tail_cons] at hcon'
            exact hab.2 (by rw [hta, htb]; exact List.cons_prefix_cons.mpr ⟨rfl, hcon'⟩)
        by_cases hP0e : P0 = []
        · have hP1perm : P1.Perm (e1 :: e2 :: rest) := by
            rw [hP0e] at hsplit
            simpa using hsplit
          have hlenP1 : P1.length = (e1 :: e2 :: rest).length := hP1perm.length_eq
          have hQ1ne : Q1 ≠ [] := by
            rw [hQ1]
            intro hcon
            have hpe : P1 = [] := by simpa using hcon
            rw [hpe] at hlenP1
            simp at hlenP1
          have hsum1len : (P1.map (fun e => e.2.length)).sum
              = ((e1 :: e2 :: rest).map (fun e => e.2.length)).sum :=
            (hP1perm.map _).sum_eq
          have h2le : 2 ≤ P1.length := by
            rw [hlenP1]
            simp
          have hfuel : (Q1.map (fun e => e.2.length)).sum ≤ N := by
            rw [hQ1len]
            omega
          obtain ⟨T1, hT1leaves, hT1cost⟩ := ih Q1 hfuel hQ1ne hQ1ch hQ1pw
          refine ⟨T1, ?_, ?_⟩
          · rw [hT1leaves, hQ1fst]
            exact Multiset.coe_eq_coe.mpr (hP1perm.map Prod.fst)
          · refine hT1cost.trans ?_
            rw [hQ1w]
            have hw1 := sum_w_tail P1 hP1ne_all
            have hwl : (P1.map (fun e => e.1.2 * e.2.length)).sum
                = ((e1 :: e2 :: rest).map (fun e => e.1.2 * e.2.length)).sum :=
              (hP1perm.map _).sum_eq
            omega
        · by_cases hP1e : P1 = []
          · have hP0perm : P0.Perm (e1 :: e2 :: rest) := by
              rw [hP1e] at hsplit
              simpa using hsplit
            have hlenP0 : P0.length = (e1 :: e2 :: rest).length := hP0perm.length_eq
            have hQ0ne : Q0 ≠ [] := by
              rw [hQ0]
              intro hcon
              have hpe : P0 = [] := by simpa using hcon
              rw [hpe] at hlenP0
              simp at hlenP0
            have hsum0len : (P0.map (fun e => e.2.length)).sum
                = ((e1 :: e2 :: rest).map (fun e => e.2.length)).sum :=
              (hP0perm.map _).sum_eq
            have h2le : 2 ≤ P0.length := by
              rw [hlenP0]
              simp
            have hfuel : (Q0.map (fun e => e.2.length)).sum ≤ N := by
              rw [hQ0len]
              omega
            obtain ⟨T0, hT0leaves, hT0cost⟩ := ih Q0 hfuel hQ0ne hQ0ch hQ0pw
            refine ⟨T0, ?_, ?_⟩
            · rw [hT0leaves, hQ0fst]
              exact Multiset.coe_eq_coe.mpr (hP0perm.map Prod.fst)
            · refine hT0cost.trans ?_
              rw [hQ0w]
              have hw0 := sum_w_tail P0 hP0ne_all
              have hwl : (P0.map (fun e => e.1.2 * e.2.length)).sum
                  = ((e1 :: e2 :: rest).map (fun e => e.1.2 * e.2.length)).sum :=
                (hP0perm.map _).sum_eq
              omega
          · have hQ0ne : Q0 ≠ [] := by
              rw [hQ0]
              simpa using hP0e
            have hQ1ne : Q1 ≠ [] := by
              rw [hQ1]
              simpa using hP1e
            have hP0len1 : 1 ≤ P0.length := List.length_pos.mpr hP0e
            have hP1len1 : 1 ≤ P1.length := List.length_pos.mpr hP1e
            have hfuel0 : (Q0.map (fun e => e.2.length)).sum ≤ N := by
              rw [hQ0len]
              omega
            have hfuel1 : (Q1.map (fun e => e.2.length)).sum ≤ N := by
              rw [hQ1len]
              omega
            obtain ⟨T0, hT0leaves, hT0cost⟩ := ih Q0 hfuel0 hQ0ne hQ0ch hQ0pw
            obtain ⟨T1, hT1leaves, hT1cost⟩ := ih Q1 hfuel1 hQ1ne hQ1ch hQ1pw
            refine ⟨BT.node T0 T1, ?_, ?_⟩
            · show T0.leavesM + T1.leavesM = _
              rw [hT0leaves, hT1leaves, hQ0fst, hQ1fst,
                show ((P0.map Prod.fst : List (String × Nat)) : Multiset (String × Nat))
                    + ((P1.map Prod.fst : List (String × Nat)) : Multiset (String × Nat))
                  = (((P0 ++ P1).map Prod.fst : List (String × Nat))
                    : Multiset (String × Nat)) from by rw [List.map_append]; rfl]
              exact Multiset.coe_eq_coe.mpr (hsplit.map Prod.fst)
            · show T0.cost + T1.cost + T0.weight + T1.weight ≤ _
              have hw0eq : T0.weight = (P0.map (fun e => e.1.2)).sum := by
                rw [BT.weight_leavesM T0, hT0leaves, hQ0fst,
                  show Multiset.map Prod.snd
                      ((P0.map Prod.fst : List (String × Nat)) : Multiset (String × Nat))
                    = (((P0.map Prod.fst).map Prod.snd : List Nat) : Multiset Nat)
                    from rfl,
                  show ((P0.map Prod.fst).map Prod.snd : List Nat)
                    = P0.map (fun e => e.1.2) from by rw [List.map_map]; rfl]
                rfl
              have hw1eq : T1.weight = (P1.map (fun e => e.1.2)).sum := by
                rw [BT.weight_leavesM T1, hT1leaves, hQ1fst,
                  show Multiset.map Prod.snd
                      ((P1.map Prod.fst : List (String × Nat)) : Multiset (String × Nat))
                    = (((P1.map Prod.fst).map Prod.snd : List Nat) : Multiset Nat)
                    from rfl,
                  show ((P1.map Prod.fst).map Prod.snd : List Nat)
                    = P1.map (fun e => e.1.2) from by rw [List.map_map]; rfl]
                rfl
              have hcost0 := hT0cost
              rw [hQ0w] at hcost0
              have hcost1 := hT1cost
              rw [hQ1w] at hcost1
              have hw0 := sum_w_tail P0 hP0ne_all
              have hw1 := sum_w_tail P1 hP1ne_all
              rw [hw0eq, hw1eq]
              omega

/-- A binary prefix code (as a table), weighted by a frequency function,
admits a binary tree with the same symbol/weight leaves and no larger
cost. -/
theorem prefix_code_to_tree (freq : String → Nat) (other : List (String × String))
    (hne : other ≠ []) (hcode : IsBinaryPrefixCode other) :
    ∃ T : BT,
      T.leavesM = ((other.map (fun q => (q.1, freq q.1)) : List (String × Nat))
        : Multiset (String × Nat))
      ∧ T.cost ≤ tableCost freq other := by
  have hch' : ∀ e ∈ other.map (fun q => ((q.1, freq q.1), q.2.data)),
      ∀ ch ∈ e.2, ch = '0' ∨ ch = '1' := by
    intro e he ch hc2
    obtain ⟨q, hq, hqe⟩ := List.mem_map.mp he
    have hc2' : ch ∈ q.2.data := by rw [← hqe] at hc2; exact hc2
    exact hcode.1 q hq ch hc2'
  have hpw' : (other.map (fun q => ((q.1, freq q.1), q.2.data))).Pairwise
      (fun e f => ¬ e.2 <+: f.2 ∧ ¬ f.2 <+: e.2) := by
    rw [List.pairwise_map]
    exact hcode.2
  obtain ⟨T, hl, hc⟩ := prefix_code_tree
    ((other.map (fun q => ((q.1, freq q.1), q.2.data))).map (fun e => e.2.length)).sum
    (other.map (fun q => ((q.1, freq q.1), q.2.data)))
    (Nat.le_refl _) (by simpa using hne) hch' hpw'
  refine ⟨T, ?_, ?_⟩
  · rw [hl,
      show (other.map (fun q => ((q.1, freq q.1), q.2.data))).map Prod.fst
        = other.map (fun q => (q.1, freq q.1)) from by rw [List.map_map]; rfl]
  · refine hc.trans ?_
    rw [show (other.map (fun q => ((q.1, freq q.1), q.2.data))).map
          (fun e => e.1.2 * e.2.length)
        = other.map (fun p => freq p.1 * p.2.data.length) from by
        rw [List.map_map]; rfl]
    exact Nat.le_of_eq rfl

/-! ## Claim theorem: C3 -/

/-- C3: Huffman optimality: for every non-empty input sequence, every
possible map-enumeration order, and every successful run, the CodeTable
produced by `GetCodesFromListOfCommands` minimises the sum over distinct
symbols of (frequency × code length) among all binary prefix codes over
those symbols (the cost of any prefix-free binary table on the same key
set is at least the cost of the produced table, both weighted by the
frequency map of the input). -/
theorem huffman_code_optimal (cmds : List String) (hc : cmds ≠ [])
    (enum : List (String × Nat)) (he : EnumOf cmds enum)
    (table : List (String × String))
    (hrun : GetCodesFromListOfCommands (some cmds) enum = some table)
    (other : List (String × String)) (hcode : IsBinaryPrefixCode other)
    (hkeys : (other.map Prod.fst).Perm ((buildFrequencyMap cmds).map Prod.fst)) :
    tableCost (lookupCount (buildFrequencyMap cmds)) table
      ≤ tableCost (lookupCount (buildFrequencyMap cmds)) other := by
  obtain ⟨root, hbht, hwf, hleafperm, hnodup, hlc, hic, hcodes⟩ :=
    getCodes_run cmds hc enum he
  have htab : table = codesOf root "" := Option.some.inj (hrun.symm.trans hcodes)
  have hene : enum ≠ [] := by
    intro hcon
    exact freqMap_ne_nil cmds hc (List.Perm.symm (hcon ▸ he)).eq_nil
  obtain ⟨root2, hbht2, hsteps⟩ := buildHuffmanTree_huffSteps enum hene
  have hroots : root2 = root := Option.some.inj (hbht2.symm.trans hbht)
  rw [hroots] at hsteps
  have hmsenum : (enum : Multiset (String × Nat))
      = (buildFrequencyMap cmds : Multiset (String × Nat)) :=
    Multiset.coe_eq_coe.mpr he
  have hleaves : (toBT root).leavesM = (enum : Multiset (String × Nat)) := by
    rw [huffSteps_leavesM hsteps, Multiset.map_map,
      show (BT.leavesM ∘ fun p : String × Nat => BT.leaf p.1 p.2)
        = fun p : String × Nat => ({p} : Multiset (String × Nat)) from by
        funext p
        rfl]
    exact Multiset.sum_map_singleton _
  have hfr : ∀ p ∈ root.leafPairs, lookupCount (buildFrequencyMap cmds) p.1 = p.2 := by
    intro p hp
    have hpc : p ∈ (root.leafPairs : Multiset (String × Nat)) := Multiset.mem_coe.mpr hp
    rw [← toBT_leafPairs hwf, hleaves, hmsenum] at hpc
    exact lookupCount_of_mem_nodup _ p (freqMap_keys_nodup cmds) (Multiset.mem_coe.mp hpc)
  have hcosttab : tableCost (lookupCount (buildFrequencyMap cmds)) table
      = (toBT root).cost := by
    rw [htab, tableCost_codesOf _ root hwf hfr "",
      show ("" : String).length = 0 from rfl]
    simp
  have hone : other ≠ [] := by
    intro hcon
    rw [hcon] at hkeys
    have h1 : (buildFrequencyMap cmds).map Prod.fst = [] := hkeys.symm.eq_nil
    exact freqMap_ne_nil cmds hc (by simpa using h1)
  obtain ⟨T, hTleaves, hTcost⟩ :=
    prefix_code_to_tree (lookupCount (buildFrequencyMap cmds)) other hone hcode
  have hTfm : T.leavesM = (buildFrequencyMap cmds : Multiset (String × Nat)) := by
    rw [hTleaves]
    have h1 : other.map (fun q => (q.1, lookupCount (buildFrequencyMap cmds) q.1))
        = (other.map Prod.fst).map
            (fun s => (s, lookupCount (buildFrequencyMap cmds) s)) := by
      rw [List.map_map]
      rfl
    have h2 : ((buildFrequencyMap cmds).map Prod.fst).map
        (fun s => (s, lookupCount (buildFrequencyMap cmds) s))
        = buildFrequencyMap cmds := by
      rw [List.map_map,
        show (buildFrequencyMap cmds).map
            ((fun s => (s, lookupCount (buildFrequencyMap cmds) s)) ∘ Prod.fst)
          = (buildFrequencyMap cmds).map id from
          List.map_congr_left (fun p hp => by
            show (p.1, lookupCount (buildFrequencyMap cmds) p.1) = p
            rw [lookupCount_of_mem_nodup _ p (freqMap_keys_nodup cmds) hp]),
        List.map_id]
    refine Multiset.coe_eq_coe.mpr ?_
    rw [h1]
    conv_rhs => rw [← h2]
    exact hkeys.map _
  rw [hcosttab]
  refine le_trans ?_ hTcost
  refine huffSteps_min_cost ?_ T hTfm
  rw [← hmsenum]
  exact hsteps

/-- Witness for C3 at a concrete input: on `["A", "B"]` the produced
table `A ↦ "0", B ↦ "1"` costs no more than the alternative prefix code
`B ↦ "0", A ↦ "1"`. -/
theorem huffman_code_optimal_witness :
    (["A", "B"] : List String) ≠ []
    ∧ EnumOf ["A", "B"] [("A", 1), ("B", 1)]
    ∧ GetCodesFromListOfCommands (some ["A", "B"]) [("A", 1), ("B", 1)]
        = some [("A", "0"), ("B", "1")]
    ∧ IsBinaryPrefixCode [("B", "0"), ("A", "1")]
    ∧ ([("B", "0"), ("A", "1")].map Prod.fst).Perm
        ((buildFrequencyMap ["A", "B"]).map Prod.fst)
    ∧ tableCost (lookupCount (buildFrequencyMap ["A", "B"])) [("A", "0"), ("B", "1")]
        ≤ tableCost (lookupCount (buildFrequencyMap ["A", "B"])) [("B", "0"), ("A", "1")] :=
  ⟨by decide, by unfold EnumOf; decide, by decide, ⟨by decide, by decide⟩, by decide,
    huffman_code_optimal ["A", "B"] (by decide) [("A", 1), ("B", 1)]
      (by unfold EnumOf; decide) [("A", "0"), ("B", "1")] (by decide)
      [("B", "0"), ("A", "1")] ⟨by decide, by decide⟩ (by decide)⟩
